import Mathlib

/-!
# go-grip: the Markdown preprocessing pass and the render hooks of `pkg/parser.go`

A shallow embedding of `preprocessMarkdown`, `isListStart` and the render hooks
(`renderHookBlockQuote`, `renderHookParagraph`, `renderHookText`, `renderHookListItem`),
followed by the properties proved about them.

Byte slices and Go strings are lists of natural numbers (one number per byte).
-/

namespace GoGrip

/-- A Go byte slice (or the bytes of a Go string). -/
abbrev Bytes := List Nat

/-- The bytes of an ASCII string literal of the source. -/
def ascii (s : String) : Bytes := s.toList.map Char.toNat

/-! ## Library functions used by the source (`bytes`, `strings`) -/

/-- Go `bytes.HasPrefix(s, prefix)` / `strings.HasPrefix`. -/
def HasPrefix (s pre : Bytes) : Bool := pre.isPrefixOf s

/-- Go `bytes.TrimPrefix(s, prefix)`: `s` without the leading `prefix`, or `s` itself. -/
def TrimPrefix (s pre : Bytes) : Bytes :=
  if HasPrefix s pre then s.drop pre.length else s

/-- Go `strings.CutPrefix(s, prefix)`: the rest and `true` when `s` starts with `prefix`,
otherwise `s` and `false`. -/
def CutPrefix (s pre : Bytes) : Bytes × Bool :=
  if HasPrefix s pre then (s.drop pre.length, true) else (s, false)

/-- Go `bytes.TrimLeft(s, cutset)` for a cutset of ASCII bytes: drops the leading bytes
that belong to the cutset. -/
def TrimLeft (s cutset : Bytes) : Bytes := s.dropWhile (fun b => cutset.contains b)

/-- The UTF-8 encodings of the runes accepted by Go `unicode.IsSpace`: the ASCII
bytes tab, line feed, vertical tab, form feed, carriage return and space, then
U+0085, U+00A0, U+1680, U+2000..U+200A, U+2028, U+2029, U+202F, U+205F, U+3000. -/
def whiteSpace : List Bytes :=
  [[9], [10], [11], [12], [13], [32],
   [0xC2, 0x85], [0xC2, 0xA0], [0xE1, 0x9A, 0x80],
   [0xE2, 0x80, 0x80], [0xE2, 0x80, 0x81], [0xE2, 0x80, 0x82], [0xE2, 0x80, 0x83],
   [0xE2, 0x80, 0x84], [0xE2, 0x80, 0x85], [0xE2, 0x80, 0x86], [0xE2, 0x80, 0x87],
   [0xE2, 0x80, 0x88], [0xE2, 0x80, 0x89], [0xE2, 0x80, 0x8A],
   [0xE2, 0x80, 0xA8], [0xE2, 0x80, 0xA9], [0xE2, 0x80, 0xAF],
   [0xE2, 0x81, 0x9F], [0xE3, 0x80, 0x80]]

/-- Width in bytes of the white-space rune `s` starts with, `0` when it starts with none. -/
def leadingSpaceWidth (s : Bytes) : Nat :=
  match whiteSpace.find? (fun e => e.isPrefixOf s) with
  | some e => e.length
  | none => 0

/-- Width in bytes of the white-space rune `s` ends with, `0` when it ends with none. -/
def trailingSpaceWidth (s : Bytes) : Nat :=
  match whiteSpace.find? (fun e => e.isSuffixOf s) with
  | some e => e.length
  | none => 0

/-- Removes leading white-space runes, at most `fuel` of them. -/
def trimSpaceLeft : Nat → Bytes → Bytes
  | 0, s => s
  | fuel + 1, s =>
    if leadingSpaceWidth s = 0 then s else trimSpaceLeft fuel (s.drop (leadingSpaceWidth s))

/-- Removes trailing white-space runes, at most `fuel` of them. -/
def trimSpaceRight : Nat → Bytes → Bytes
  | 0, s => s
  | fuel + 1, s =>
    if trailingSpaceWidth s = 0 then s
    else trimSpaceRight fuel (s.take (s.length - trailingSpaceWidth s))

/-- Go `bytes.TrimSpace(s)`: slices off all leading and trailing white space, as defined
by Unicode (the bytes are read as UTF-8; a byte sequence that is not the encoding of a
white-space rune stops the trimming). Each removed rune has at least one byte, so
`s.length` rounds are enough on either side. -/
def TrimSpace (s : Bytes) : Bytes :=
  trimSpaceRight s.length (trimSpaceLeft s.length s)

/-- Go `bytes.Split(s, []byte("\n"))`: the lines of `s`; always at least one. -/
def Split : Bytes → List Bytes
  | [] => [[]]
  | c :: cs =>
    if c = 10 then [] :: Split cs
    else
      match Split cs with
      | [] => [[c]]
      | l :: ls => (c :: l) :: ls

/-- Go `bytes.Join(lines, []byte("\n"))`. -/
def Join : List Bytes → Bytes
  | [] => []
  | [l] => l
  | l :: l2 :: ls => l ++ 10 :: Join (l2 :: ls)

/-! ## `isListStart` -/

/-- The loop `for bytes.HasPrefix(line, ">") { line = TrimPrefix(line, ">");
line = TrimLeft(line, " \t") }` of `isListStart`, run for at most `fuel` rounds. -/
def stripQuoteLoop : Nat → Bytes → Bytes
  | 0, line => line
  | fuel + 1, line =>
    if HasPrefix line (ascii ">") then
      stripQuoteLoop fuel (TrimLeft (TrimPrefix line (ascii ">")) (ascii " \t"))
    else line

/-- The digit-scanning loop of `isListStart` over the bytes from index `i` on, with the
current `digitCount`; the result is whether the loop reaches `return true`. -/
def orderedLoop : Bytes → Nat → Bool
  | [], _ => false
  | c :: rest, digitCount =>
    if 48 ≤ c ∧ c ≤ 57 then orderedLoop rest (digitCount + 1)
    else if digitCount > 0 ∧ (c = 46 ∨ c = 41) then
      match rest with
      | d :: _ => d == 32
      | [] => false
    else false

/-- Source `isListStart`: whether a line starts a list item (ordered or unordered).
Every round of the block-quote loop removes a byte, so `line.length` rounds run it to its
end. -/
def isListStart (line : Bytes) : Bool :=
  if line.length = 0 then false
  else
    let line := stripQuoteLoop line.length line
    if line.length = 0 then false
    else
      match line with
      | c0 :: c1 :: _ =>
        if (c0 = 45 ∨ c0 = 42 ∨ c0 = 43) ∧ c1 = 32 then true
        else orderedLoop line 0
      | _ => orderedLoop line 0

/-! ## `preprocessMarkdown` -/

/-- The variables of the loop of `preprocessMarkdown` that live across iterations. -/
structure LoopState where
  result : List Bytes
  inCodeBlock : Bool
deriving DecidableEq, Repr

/-- One iteration `i` of the loop `for i, line := range lines` of `preprocessMarkdown`. -/
def loopBody (lines : List Bytes) (st : LoopState) (i : Nat) : LoopState :=
  let line := lines.getD i []
  let trimmed := TrimSpace line
  if HasPrefix trimmed (ascii "```") || HasPrefix trimmed (ascii "~~~") then
    { result := st.result ++ [line], inCodeBlock := !st.inCodeBlock }
  else if st.inCodeBlock then
    { st with result := st.result ++ [line] }
  else
    let result :=
      if i > 0 then
        let prevLine := lines.getD (i - 1) []
        let prevTrimmed := TrimSpace prevLine
        if prevTrimmed.length > 0 && isListStart trimmed then
          if !isListStart prevTrimmed then st.result ++ [[]] else st.result
        else st.result
      else st.result
    { st with result := result ++ [line] }

/-- The state of the loop of `preprocessMarkdown` after its first `k` iterations. -/
def loopUpTo (lines : List Bytes) (k : Nat) : LoopState :=
  (List.range k).foldl (loopBody lines) { result := [], inCodeBlock := false }

/-- The `result` slice of `preprocessMarkdown` when its loop has run over all `lines`. -/
def preprocessLines (lines : List Bytes) : List Bytes :=
  (loopUpTo lines lines.length).result

/-- Source `preprocessMarkdown`. -/
def preprocessMarkdown (md : Bytes) : Bytes :=
  Join (preprocessLines (Split md))

/-! ## The preprocessing contract, as the specification words it -/

/-- A fence delimiter: a line whose trimmed content begins with three backticks or three
tildes. -/
def isFence (line : Bytes) : Bool :=
  HasPrefix (TrimSpace line) (ascii "```") || HasPrefix (TrimSpace line) (ascii "~~~")

/-- The fence flag when line `i` is reached: closed at the first line, toggled by each
delimiter line before `i`. -/
def fenceOpenBefore (lines : List Bytes) : Nat → Bool
  | 0 => false
  | i + 1 => xor (fenceOpenBefore lines i) (isFence (lines.getD i []))

/-- The condition under which the specification asks for an empty line before input line
`i`: `i` is not the first line; line `i` is not a fence delimiter and is reached with the
fence flag closed; the previous line is non-blank after trimming; line `i`, trimmed,
starts a list; the previous line, trimmed, does not. -/
def insertsBefore (lines : List Bytes) (i : Nat) : Bool :=
  decide (i ≠ 0) && !isFence (lines.getD i []) && !fenceOpenBefore lines i
    && decide (TrimSpace (lines.getD (i - 1) []) ≠ [])
    && isListStart (TrimSpace (lines.getD i []))
    && !isListStart (TrimSpace (lines.getD (i - 1) []))

/-- What iteration `i` contributes to the output under the insertion rule `ins`: an empty
line when `ins i`, then input line `i`. -/
def chunk (ins : Nat → Bool) (lines : List Bytes) (i : Nat) : List Bytes :=
  (if ins i then [[]] else []) ++ [lines.getD i []]

/-- The input lines with one empty line put before line `i` for each `i` with `ins i`. -/
def weave (ins : Nat → Bool) (lines : List Bytes) : List Bytes :=
  (List.range lines.length).flatMap (chunk ins lines)

/-- The insertion decision of one loop iteration, given the previous line (if any), the
fence flag and the current line. -/
def insertsAfter (prev : Option Bytes) (flag : Bool) (line : Bytes) : Bool :=
  !isFence line && !flag &&
    match prev with
    | none => false
    | some p =>
      decide (TrimSpace p ≠ []) && isListStart (TrimSpace line) && !isListStart (TrimSpace p)

/-- The loop of `preprocessMarkdown` as a recursion over the remaining lines, carrying
the previous line and the fence flag. -/
def walkLines : Option Bytes → Bool → List Bytes → List Bytes
  | _, _, [] => []
  | prev, flag, l :: ls =>
    (if insertsAfter prev flag l then [[]] else []) ++
      l :: walkLines (some l) (xor flag (isFence l)) ls

/-- The previous line when line `k` is reached, if there is one. -/
def prevAt (lines : List Bytes) (k : Nat) : Option Bytes :=
  if k = 0 then none else some (lines.getD (k - 1) [])

/-! ## List starts, as the specification words them -/

/-- The relation `StripsTo line rest`: `rest` is what remains of `line` after repeatedly
stripping a leading block-quote marker (byte 62) together with the spaces (32) and tabs
(9) that follow it, until the text no longer begins with a marker. -/
inductive StripsTo : Bytes → Bytes → Prop
  | done (rest : Bytes) : (∀ cs, rest ≠ 62 :: cs) → StripsTo rest rest
  | step (cs rest : Bytes) :
      StripsTo (cs.dropWhile (fun b => b == 32 || b == 9)) rest → StripsTo (62 :: cs) rest

/-- The text begins with one of the bytes 45, 42, 43 (minus, asterisk, plus) followed by
a space. -/
def BeginsUnordered (rest : Bytes) : Prop :=
  ∃ c tail, (c = 45 ∨ c = 42 ∨ c = 43) ∧ rest = c :: 32 :: tail

/-- The text begins with one or more decimal digits followed by a full stop (46) or a
closing parenthesis (41) followed by a space. -/
def BeginsOrdered (rest : Bytes) : Prop :=
  ∃ ds c tail, ds ≠ [] ∧ (∀ d ∈ ds, 48 ≤ d ∧ d ≤ 57) ∧ (c = 46 ∨ c = 41)
    ∧ rest = ds ++ c :: 32 :: tail

/-- A list start in the words of the specification. -/
def SpecListStart (line : Bytes) : Prop :=
  ∃ rest, StripsTo line rest ∧ (BeginsUnordered rest ∨ BeginsOrdered rest)

/-- The test `isListStart` makes once the block-quote markers are stripped. -/
def markerAt (line : Bytes) : Bool :=
  if line.length = 0 then false
  else
    match line with
    | c0 :: c1 :: _ =>
      if (c0 = 45 ∨ c0 = 42 ∨ c0 = 43) ∧ c1 = 32 then true
      else orderedLoop line 0
    | _ => orderedLoop line 0

/-! ## The syntax tree and the render hooks -/

/-- The node kinds the render hook tells apart (`switch node.(type)`); `Other` stands for
every other node type of the external parser. -/
inductive NodeKind
  | BlockQuote | Paragraph | Text | ListItem | CodeBlock | Other
deriving DecidableEq, Repr

/-- A node of the syntax tree: its kind, its `Literal` bytes and its children. The
parent back-references of the source are passed to the hooks as the list of the kinds of
the node's ancestors, the parent first (empty for the root, whose `GetParent()` is nil). -/
inductive Node where
  | mk (kind : NodeKind) (literal : Bytes) (children : List Node)

/-- The kind of a node. -/
def Node.kind : Node → NodeKind
  | .mk k _ _ => k

/-- The `Literal` of a node. -/
def Node.literal : Node → Bytes
  | .mk _ l _ => l

/-- The children of a node (`GetChildren()`). -/
def Node.children : Node → List Node
  | .mk _ _ cs => cs

/-- The `ast.WalkStatus` values. -/
inductive WalkStatus
  | GoToNext | SkipChildren | Terminate
deriving DecidableEq, Repr

/-- What one call of a hook does: the bytes it writes to `w`, in order, and the pair
`(ast.WalkStatus, bool)` it returns. A failed write is only logged by the source, so the
writer is taken to accept every write. -/
structure HookResult where
  written : Bytes
  status : WalkStatus
  consumed : Bool
deriving DecidableEq, Repr

/-- Source `blockquotes`. -/
def blockquotes : List Bytes :=
  [ascii "Note", ascii "Tip", ascii "Important", ascii "Warning", ascii "Caution",
   ascii "BlockQuote"]

/-- Go `strings.ToUpper` on ASCII text (the source applies it to `blockquotes` only). -/
def ToUpper (s : Bytes) : Bytes := s.map (fun b => if 97 ≤ b ∧ b ≤ 122 then b - 32 else b)

/-- Go `strings.ToLower` on ASCII text (the source applies it to `blockquotes` only). -/
def ToLower (s : Bytes) : Bytes := s.map (fun b => if 65 ≤ b ∧ b ≤ 90 then b + 32 else b)

/-- The token `fmt.Sprintf("[!%s]", strings.ToUpper(b))`. -/
def alertToken (b : Bytes) : Bytes := ascii "[!" ++ ToUpper b ++ ascii "]"

/-- Source `createBlockquoteStart`. The embedded template files (`defaults.Templates`)
are not part of the sources at hand: `execTemplate path data` stands for parsing the
template at `path` and executing it on `data`, `none` when either step fails. The result
is the pair of the source: the rendered text and whether an error is returned. -/
def createBlockquoteStart (execTemplate : Bytes → Bytes → Option Bytes) (alert : Bytes) :
    Bytes × Bool :=
  let lp := ascii "templates/alert" ++ ascii "/" ++ (alert ++ ascii ".html")
  match execTemplate lp alert with
  | none => ([], true)
  | some tpl => (tpl, false)

/-- Source `renderHookBlockQuote`. -/
def renderHookBlockQuote : HookResult :=
  { written := [], status := .GoToNext, consumed := true }

/-- The loop `for _, b := range blockquotes` of `renderHookParagraph`: the value of
`alert` at its end. -/
def alertOf (content : Bytes) : Bytes :=
  blockquotes.foldl
    (fun alert b => if HasPrefix content (alertToken b) then ToLower b else alert) []

/-- Source `renderHookParagraph`; `none` is a run-time panic (a failed type assertion on
`node`, or the index `[0]` into an empty child list). -/
def renderHookParagraph (execTemplate : Bytes → Bytes → Option Bytes)
    (ancestors : List NodeKind) (node : Node) (entering : Bool) : Option HookResult :=
  if node.kind ≠ .Paragraph then none
  else if ancestors.head? ≠ some .BlockQuote then
    some { written := [], status := .GoToNext, consumed := false }
  else
    match node.children with
    | [] => none
    | t :: _ =>
      if t.kind ≠ .Text then some { written := [], status := .GoToNext, consumed := false }
      else
        let content := t.literal
        let alert := alertOf content
        if alert = [] then some { written := [], status := .GoToNext, consumed := false }
        else if entering then
          some { written := (createBlockquoteStart execTemplate alert).1,
                 status := .GoToNext, consumed := true }
        else
          some { written := ascii "</div>", status := .GoToNext, consumed := true }

/-- The class `\s` of Go regular expressions: tab, line feed, form feed, carriage return,
space. -/
def isRegexSpace (b : Nat) : Bool := b == 9 || b == 10 || b == 12 || b == 13 || b == 32

/-- The length of the match of the pattern `(:\S+:)` that begins at the start of `s`, if
there is one: a colon, then as many non-space bytes as possible such that a colon
follows (the greedy `\S+` gives back bytes until the closing colon matches). -/
def matchShortcode (s : Bytes) : Option Nat :=
  match s with
  | 58 :: rest =>
    let run := rest.takeWhile (fun b => !isRegexSpace b)
    match (List.range run.length).reverse.find? (fun j => decide (1 ≤ j) && run.getD j 0 == 58)
    with
    | some j => some (j + 2)
    | none => none
  | _ => none

/-- The callback passed to `ReplaceAllStringFunc` in `renderHookText`; `EmojiMap` is the
emoji table of the repository (a Go map, here a lookup function). -/
def emojiFor (EmojiMap : Bytes → Option Bytes) (s : Bytes) : Bytes :=
  match EmojiMap s with
  | none => s
  | some val =>
    if HasPrefix val (ascii "/") then
      ascii "<img class=\"emoji\" title=\"" ++ s ++ ascii "\" alt=\"" ++ s
        ++ ascii "\" src=\"" ++ val
        ++ ascii "\" height=\"20\" width=\"20\" align=\"absmiddle\">"
    else val

/-- Go `ReplaceAllStringFunc` for the pattern `(:\S+:)`: scans from the left, replaces each
match by `repl` of it and goes on after the match; `fuel` bounds the number of steps. -/
def replaceAllShortcodes (repl : Bytes → Bytes) : Nat → Bytes → Bytes
  | 0, s => s
  | _ + 1, [] => []
  | fuel + 1, c :: cs =>
    match matchShortcode (c :: cs) with
    | some n => repl ((c :: cs).take n) ++ replaceAllShortcodes repl fuel ((c :: cs).drop n)
    | none => c :: replaceAllShortcodes repl fuel cs

/-- The value `withEmoji` of `renderHookText`. Every step consumes a byte, so
`literal.length` steps reach the end of the text. -/
def withEmoji (EmojiMap : Bytes → Option Bytes) (literal : Bytes) : Bytes :=
  replaceAllShortcodes (emojiFor EmojiMap) literal.length literal

/-- The loop `for _, b := range blockquotes` of `renderHookText`: the content written for
the first `b` whose token is a prefix, if any. -/
def cutAlertPrefix (text : Bytes) : List Bytes → Option Bytes
  | [] => none
  | b :: bs =>
    if (CutPrefix text (alertToken b)).2 then some (CutPrefix text (alertToken b)).1
    else cutAlertPrefix text bs

/-- The unchecked check box written by `renderHookText`. -/
def checkboxUnchecked : Bytes :=
  ascii "<input type=\"checkbox\" disabled class=\"task-list-item-checkbox\"> "

/-- The checked check box written by `renderHookText`. -/
def checkboxChecked : Bytes :=
  ascii "<input type=\"checkbox\" disabled class=\"task-list-item-checkbox\" checked> "

/-- The part of `renderHookText` from the `ListItem` test to the end, as the bytes
written: `inListItem` is whether the paragraph's parent is a list item. -/
def textTail (inListItem : Bool) (text : Bytes) : Bytes :=
  if inListItem then
    if (CutPrefix text (ascii "[ ]")).2 then
      checkboxUnchecked ++ (CutPrefix text (ascii "[ ]")).1
    else if (CutPrefix text (ascii "[x]")).2 then
      (checkboxChecked ++ (CutPrefix text (ascii "[x]")).1) ++ text
    else text
  else text

/-- Source `renderHookText`; `none` is a run-time panic (a failed type assertion on
`node`). The writes of one call are concatenated in `written`. -/
def renderHookText (EmojiMap : Bytes → Option Bytes) (ancestors : List NodeKind)
    (node : Node) : Option HookResult :=
  if node.kind ≠ .Text then none
  else
    let text := withEmoji EmojiMap node.literal
    if ancestors.head? ≠ some .Paragraph then
      some { written := text, status := .GoToNext, consumed := true }
    else
      let grandparent := ancestors.tail.head?
      match (if grandparent = some .BlockQuote then cutAlertPrefix text blockquotes else none)
      with
      | some content => some { written := content, status := .GoToNext, consumed := true }
      | none =>
        some { written := textTail (decide (grandparent = some .ListItem)) text,
               status := .GoToNext, consumed := true }

/-- Source `renderHookListItem`; `none` is a run-time panic (a failed type assertion on
`node`, or the index `[0]` into an empty child list). -/
def renderHookListItem (node : Node) (entering : Bool) : Option HookResult :=
  if node.kind ≠ .ListItem then none
  else
    match node.children with
    | [] => none
    | paragraph :: _ =>
      if paragraph.kind ≠ .Paragraph then
        some { written := [], status := .GoToNext, consumed := false }
      else
        match paragraph.children with
        | [] => none
        | t :: _ =>
          if t.kind ≠ .Text then some { written := [], status := .GoToNext, consumed := false }
          else if !(HasPrefix t.literal (ascii "[ ]") || HasPrefix t.literal (ascii "[x]")) then
            some { written := [], status := .GoToNext, consumed := false }
          else if entering then
            some { written := ascii "<li class=\"task-list-item\">",
                   status := .GoToNext, consumed := true }
          else
            some { written := ascii "</li>", status := .GoToNext, consumed := true }

/-- Source `renderHookCodeBlock`, which always returns `(ast.GoToNext, true)`. What it
writes comes from the external highlighter and the diagram template; `codeBlockHTML`
stands for those bytes. -/
def renderHookCodeBlock (codeBlockHTML : Node → Bytes) (node : Node) : Option HookResult :=
  if node.kind ≠ .CodeBlock then none
  else some { written := codeBlockHTML node, status := .GoToNext, consumed := true }

/-- The collaborators of the render hook that are not in the sources at hand: the
template files, the emoji table and the output of the code-block renderers. -/
structure Env where
  execTemplate : Bytes → Bytes → Option Bytes
  EmojiMap : Bytes → Option Bytes
  codeBlockHTML : Node → Bytes

/-- Source `renderHook`: the dispatch on the node type. -/
def renderHook (env : Env) (ancestors : List NodeKind) (node : Node) (entering : Bool) :
    Option HookResult :=
  match node.kind with
  | .BlockQuote => some renderHookBlockQuote
  | .Paragraph => renderHookParagraph env.execTemplate ancestors node entering
  | .Text => renderHookText env.EmojiMap ancestors node
  | .ListItem => renderHookListItem node entering
  | .CodeBlock => renderHookCodeBlock env.codeBlockHTML node
  | .Other => some { written := [], status := .GoToNext, consumed := false }

/-- The external renderer's treatment of one visit of a node (`RenderNode` of the
`gomarkdown` HTML renderer, with `RenderNodeHook` set to `renderHook`): it calls the hook
first, and its own default HTML for the node (`defaultHTML node entering`, a parameter) is
emitted only when the hook did not consume the node. -/
def renderVisit (env : Env) (defaultHTML : Node → Bool → Bytes) (ancestors : List NodeKind)
    (node : Node) (entering : Bool) : Option Bytes :=
  match renderHook env ancestors node entering with
  | none => none
  | some r => some (r.written ++ (if r.consumed then [] else defaultHTML node entering))

/-- Leaf nodes are visited once (entering); `Text` and `CodeBlock` are the leaf kinds. -/
def NodeKind.isLeaf : NodeKind → Bool
  | .Text => true
  | .CodeBlock => true
  | _ => false

mutual
/-- The external renderer's depth-first walk (`ast.Walk` of `gomarkdown`): every node is
visited at entry, then its children in order, then (for a container) at exit; every hook
of the source returns `GoToNext`, so no node is skipped. The result is the HTML written,
or `none` when a hook panics. -/
def renderWalk (env : Env) (defaultHTML : Node → Bool → Bytes) (ancestors : List NodeKind) :
    Node → Option Bytes
  | .mk kind literal children =>
    match renderVisit env defaultHTML ancestors (.mk kind literal children) true with
    | none => none
    | some opening =>
      if kind.isLeaf then some opening
      else
        match renderWalkList env defaultHTML (kind :: ancestors) children with
        | none => none
        | some inner =>
          match renderVisit env defaultHTML ancestors (.mk kind literal children) false with
          | none => none
          | some closing => some (opening ++ inner ++ closing)
/-- The walk over the children of a node, in order. -/
def renderWalkList (env : Env) (defaultHTML : Node → Bool → Bytes)
    (ancestors : List NodeKind) : List Node → Option Bytes
  | [] => some []
  | n :: ns =>
    match renderWalk env defaultHTML ancestors n with
    | none => none
    | some first =>
      match renderWalkList env defaultHTML ancestors ns with
      | none => none
      | some others => some (first ++ others)
end

/-- A default renderer for examples: the wrapper tags of block quotes, paragraphs and
list items, nothing for other nodes. -/
def exampleHTML (node : Node) (entering : Bool) : Bytes :=
  match node.kind, entering with
  | .BlockQuote, true => ascii "<blockquote>"
  | .BlockQuote, false => ascii "</blockquote>"
  | .Paragraph, true => ascii "<p>"
  | .Paragraph, false => ascii "</p>"
  | .ListItem, true => ascii "<li>"
  | .ListItem, false => ascii "</li>"
  | _, _ => []

/-- An environment for examples: no template, no emoji, no code-block output. -/
def emptyEnv : Env :=
  { execTemplate := fun _ _ => none, EmojiMap := fun _ => none, codeBlockHTML := fun _ => [] }

/-- An environment for examples whose templates render an opening `div` for the alert. -/
def exampleEnv : Env :=
  { execTemplate := fun _ data => some (ascii "<div class=\"" ++ data ++ ascii "\">"),
    EmojiMap := fun s => if s = ascii ":smile:" then some (ascii "(smile)")
      else if s = ascii ":octocat:" then some (ascii "/images/octocat.png") else none,
    codeBlockHTML := fun _ => [] }

/-- Whether the first child `c` of a list item makes it a task item, in the words of the
specification: `c` is a paragraph whose first child is a text node whose literal begins
with one of the two task markers. -/
def isTaskItem (c : Node) : Bool :=
  decide (c.kind = .Paragraph) &&
    match c.children with
    | [] => false
    | t :: _ =>
      decide (t.kind = .Text) &&
        (HasPrefix t.literal (ascii "[ ]") || HasPrefix t.literal (ascii "[x]"))

/-- The matches of the shortcode pattern (a colon, one or more non-space bytes, a colon)
in `s`, as the leftmost, greedy, non-overlapping scan finds them, left to right; `fuel`
bounds the number of steps. -/
def shortcodeMatchesAux : Nat → Bytes → List Bytes
  | 0, _ => []
  | _ + 1, [] => []
  | fuel + 1, c :: cs =>
    match matchShortcode (c :: cs) with
    | some n => (c :: cs).take n :: shortcodeMatchesAux fuel ((c :: cs).drop n)
    | none => shortcodeMatchesAux fuel cs

/-- The matches of the shortcode pattern in `s`. -/
def shortcodeMatches (s : Bytes) : List Bytes := shortcodeMatchesAux s.length s

/-- The line `s` with one block-quote marker (byte 62) and a run of spaces and tabs put
in front of it for every element of `runs`, the first element outermost. -/
def addMarkers (runs : List Bytes) (s : Bytes) : Bytes :=
  runs.foldr (fun ws acc => 62 :: (ws ++ acc)) s

/-! ## Lines: `Split` and `Join` -/

theorem Split_ne_nil (s : Bytes) : Split s ≠ [] := by
  induction s with
  | nil => simp [Split]
  | cons c cs ih =>
    unfold Split
    split
    · simp
    · split <;> simp

theorem Join_cons_of_ne_nil (l : Bytes) {ls : List Bytes} (h : ls ≠ []) :
    Join (l :: ls) = l ++ 10 :: Join ls := by
  cases ls with
  | nil => exact absurd rfl h
  | cons l2 ls => rfl

theorem Join_Split (s : Bytes) : Join (Split s) = s := by
  induction s with
  | nil => rfl
  | cons c cs ih =>
    unfold Split
    split
    · next h => rw [Join_cons_of_ne_nil _ (Split_ne_nil cs), ih, h]; rfl
    · split
      · next h => exact absurd h (Split_ne_nil cs)
      · next l ls h =>
        rw [h] at ih
        cases ls with
        | nil => simp only [Join] at ih ⊢; rw [ih]
        | cons l2 ls => simp only [Join, List.cons_append] at ih ⊢; rw [ih]

theorem Split_noNewline (s : Bytes) : ∀ l ∈ Split s, 10 ∉ l := by
  induction s with
  | nil => simp [Split]
  | cons c cs ih =>
    unfold Split
    split
    · intro l hl
      rcases List.mem_cons.1 hl with rfl | hl
      · simp
      · exact ih l hl
    · next hc =>
      split
      · intro l hl
        simp only [List.mem_singleton] at hl
        subst hl
        simpa using fun h => hc h.symm
      · next l0 ls h =>
        rw [h] at ih
        intro l hl
        rcases List.mem_cons.1 hl with rfl | hl
        · have := ih l0 (List.mem_cons_self _ _)
          simp only [List.mem_cons, not_or]
          exact ⟨fun h => hc h.symm, this⟩
        · exact ih l (List.mem_cons_of_mem _ hl)

theorem Split_append_newline (l : Bytes) (hl : 10 ∉ l) (s : Bytes) :
    Split (l ++ 10 :: s) = l :: Split s := by
  induction l with
  | nil => simp [Split]
  | cons c cs ih =>
    simp only [List.mem_cons, not_or] at hl
    have hc : ¬ c = 10 := fun h => hl.1 h.symm
    simp only [List.cons_append]
    rw [Split.eq_2, if_neg hc, ih hl.2]

theorem Split_of_noNewline (l : Bytes) (hl : 10 ∉ l) : Split l = [l] := by
  induction l with
  | nil => rfl
  | cons c cs ih =>
    simp only [List.mem_cons, not_or] at hl
    have hc : ¬ c = 10 := fun h => hl.1 h.symm
    rw [Split.eq_2, if_neg hc, ih hl.2]

theorem Split_Join (ls : List Bytes) (hne : ls ≠ []) (h : ∀ l ∈ ls, 10 ∉ l) :
    Split (Join ls) = ls := by
  induction ls with
  | nil => exact absurd rfl hne
  | cons l ls ih =>
    cases ls with
    | nil => exact Split_of_noNewline l (h l (List.mem_cons_self _ _))
    | cons l2 ls =>
      rw [Join_cons_of_ne_nil _ (by simp), Split_append_newline l (h l (List.mem_cons_self _ _)),
        ih (by simp) (fun x hx => h x (List.mem_cons_of_mem _ hx))]

/-! ## The loop of `preprocessMarkdown` -/

theorem loopUpTo_succ (lines : List Bytes) (k : Nat) :
    loopUpTo lines (k + 1) = loopBody lines (loopUpTo lines k) k := by
  simp [loopUpTo, List.range_succ, List.foldl_append]

theorem loopBody_inCodeBlock (lines : List Bytes) (st : LoopState) (i : Nat) :
    (loopBody lines st i).inCodeBlock = xor st.inCodeBlock (isFence (lines.getD i [])) := by
  unfold loopBody isFence
  simp only []
  split
  · next h => rw [h]; cases st.inCodeBlock <;> rfl
  · next h =>
    rw [Bool.not_eq_true] at h
    rw [h]
    split <;> simp

theorem loopBody_result (lines : List Bytes) (st : LoopState) (i : Nat) :
    (loopBody lines st i).result =
      st.result ++
        ((if (decide (i ≠ 0) && !isFence (lines.getD i []) && !st.inCodeBlock
              && decide (TrimSpace (lines.getD (i - 1) []) ≠ [])
              && isListStart (TrimSpace (lines.getD i []))
              && !isListStart (TrimSpace (lines.getD (i - 1) []))) then [[]] else [])
          ++ [lines.getD i []]) := by
  unfold loopBody isFence
  simp only []
  generalize lines.getD i [] = line
  generalize lines.getD (i - 1) [] = prev
  generalize TrimSpace line = t
  generalize TrimSpace prev = pt
  have hlen : (0 < pt.length) = (pt ≠ []) := propext List.length_pos
  by_cases hi : i > 0
  · have hi0 : i ≠ 0 := by omega
    cases HasPrefix t (ascii "```") <;> cases HasPrefix t (ascii "~~~") <;>
      cases st.inCodeBlock <;> cases isListStart t <;> cases isListStart pt <;>
      by_cases hp : pt = [] <;> simp [hi, hi0, hp, hlen]
  · have hi0 : i = 0 := by omega
    cases HasPrefix t (ascii "```") <;> cases HasPrefix t (ascii "~~~") <;>
      cases st.inCodeBlock <;> simp [hi0]

theorem loopUpTo_inCodeBlock (lines : List Bytes) (k : Nat) :
    (loopUpTo lines k).inCodeBlock = fenceOpenBefore lines k := by
  induction k with
  | zero => rfl
  | succ k ih => rw [loopUpTo_succ, loopBody_inCodeBlock, ih, fenceOpenBefore]

theorem loopUpTo_succ_result (lines : List Bytes) (k : Nat) :
    (loopUpTo lines (k + 1)).result =
      (loopUpTo lines k).result ++ chunk (insertsBefore lines) lines k := by
  rw [loopUpTo_succ, loopBody_result, loopUpTo_inCodeBlock]
  rfl

theorem loopUpTo_result (lines : List Bytes) (k : Nat) :
    (loopUpTo lines k).result = (List.range k).flatMap (chunk (insertsBefore lines) lines) := by
  induction k with
  | zero => rfl
  | succ k ih =>
    rw [loopUpTo_succ_result, ih, List.range_succ, List.flatMap_append]
    simp

theorem preprocessLines_eq_weave (lines : List Bytes) :
    preprocessLines lines = weave (insertsBefore lines) lines :=
  loopUpTo_result lines lines.length

/-! ## The loop as a recursion over the lines -/

theorem TrimSpace_nil : TrimSpace [] = [] := rfl

theorem isListStart_nil : isListStart [] = false := rfl

theorem isFence_nil : isFence [] = false := by decide

theorem insertsAfter_prevAt (lines : List Bytes) (k : Nat) :
    insertsAfter (prevAt lines k) (fenceOpenBefore lines k) (lines.getD k []) =
      insertsBefore lines k := by
  unfold insertsAfter prevAt insertsBefore
  by_cases hk : k = 0
  · simp [hk]
  · simp only [hk, if_false, ne_eq, not_false_eq_true, decide_True, Bool.true_and,
      Bool.and_assoc]

theorem walkLines_drop (lines : List Bytes) (k : Nat) (hk : k ≤ lines.length) :
    (List.range k).flatMap (chunk (insertsBefore lines) lines) ++
        walkLines (prevAt lines k) (fenceOpenBefore lines k) (lines.drop k) =
      walkLines none false lines := by
  induction k with
  | zero => rfl
  | succ k ih =>
    have hlt : k < lines.length := hk
    have hd : lines.drop k = lines.getD k [] :: lines.drop (k + 1) := by
      rw [List.getD_eq_getElem _ _ hlt]
      exact List.drop_eq_getElem_cons hlt
    have ih' := ih (Nat.le_of_lt hlt)
    rw [hd, walkLines, insertsAfter_prevAt] at ih'
    rw [← ih', List.range_succ, List.flatMap_append]
    have hp : prevAt lines (k + 1) = some (lines.getD k []) := by simp [prevAt]
    rw [hp, fenceOpenBefore]
    simp [chunk]

theorem weave_eq_walkLines (lines : List Bytes) :
    weave (insertsBefore lines) lines = walkLines none false lines := by
  have h := walkLines_drop lines lines.length (Nat.le_refl _)
  rw [List.drop_length, walkLines, List.append_nil] at h
  exact h

theorem preprocessLines_eq_walkLines (lines : List Bytes) :
    preprocessLines lines = walkLines none false lines := by
  rw [preprocessLines_eq_weave, weave_eq_walkLines]

theorem insertsAfter_nil_line (prev : Option Bytes) (flag : Bool) :
    insertsAfter prev flag [] = false := by
  cases prev <;> simp [insertsAfter, TrimSpace_nil, isListStart_nil]

theorem insertsAfter_nil_prev (flag : Bool) (line : Bytes) :
    insertsAfter (some []) flag line = false := by
  simp [insertsAfter, TrimSpace_nil]

theorem walkLines_idem (ls : List Bytes) :
    ∀ (prev : Option Bytes) (flag : Bool),
      walkLines prev flag (walkLines prev flag ls) = walkLines prev flag ls := by
  induction ls with
  | nil => intro prev flag; rfl
  | cons l ls ih =>
    intro prev flag
    rw [walkLines]
    cases h : insertsAfter prev flag l
    · simp only [Bool.false_eq_true, if_false, List.nil_append]
      rw [walkLines, ih, h]
      simp
    · simp only [if_true, List.singleton_append]
      rw [walkLines, insertsAfter_nil_line, isFence_nil, Bool.xor_false, walkLines,
        insertsAfter_nil_prev, ih]
      simp

theorem walkLines_ne_nil (prev : Option Bytes) (flag : Bool) {ls : List Bytes}
    (h : ls ≠ []) : walkLines prev flag ls ≠ [] := by
  cases ls with
  | nil => exact absurd rfl h
  | cons l ls => simp only [walkLines]; split <;> simp

theorem walkLines_noNewline (ls : List Bytes) (h : ∀ l ∈ ls, 10 ∉ l) :
    ∀ (prev : Option Bytes) (flag : Bool), ∀ l ∈ walkLines prev flag ls, 10 ∉ l := by
  induction ls with
  | nil => intro prev flag l hl; simp [walkLines] at hl
  | cons x xs ih =>
    intro prev flag l hl
    rw [walkLines] at hl
    have hx := h x (List.mem_cons_self _ _)
    have ih' := ih (fun y hy => h y (List.mem_cons_of_mem _ hy)) (some x)
      (xor flag (isFence x))
    rcases List.mem_append.1 hl with h1 | h1
    · split at h1
      · simp only [List.mem_singleton] at h1; subst h1; simp
      · simp at h1
    · rcases List.mem_cons.1 h1 with rfl | h2
      · exact hx
      · exact ih' l h2

theorem Split_preprocessMarkdown (md : Bytes) :
    Split (preprocessMarkdown md) = preprocessLines (Split md) := by
  unfold preprocessMarkdown
  rw [preprocessLines_eq_walkLines]
  exact Split_Join _ (walkLines_ne_nil _ _ (Split_ne_nil md))
    (walkLines_noNewline _ (Split_noNewline md) _ _)

theorem preprocessMarkdown_idem (md : Bytes) :
    preprocessMarkdown (preprocessMarkdown md) = preprocessMarkdown md := by
  have h := Split_preprocessMarkdown md
  show Join (preprocessLines (Split (preprocessMarkdown md))) = _
  rw [h, preprocessLines_eq_walkLines, preprocessLines_eq_walkLines, walkLines_idem,
    ← preprocessLines_eq_walkLines]
  rfl

theorem sublist_walkLines (ls : List Bytes) :
    ∀ (prev : Option Bytes) (flag : Bool), ls.Sublist (walkLines prev flag ls) := by
  induction ls with
  | nil => intro prev flag; exact List.Sublist.refl _
  | cons l ls ih =>
    intro prev flag
    rw [walkLines]
    exact List.Sublist.trans ((ih (some l) (xor flag (isFence l))).cons₂ l)
      (List.sublist_append_right _ _)

theorem mem_walkLines (ls : List Bytes) :
    ∀ (prev : Option Bytes) (flag : Bool), ∀ l ∈ walkLines prev flag ls, l ∈ ls ∨ l = [] := by
  induction ls with
  | nil => intro prev flag l hl; simp [walkLines] at hl
  | cons x xs ih =>
    intro prev flag l hl
    rw [walkLines] at hl
    rcases List.mem_append.1 hl with h1 | h1
    · split at h1
      · simp only [List.mem_singleton] at h1; exact Or.inr h1
      · simp at h1
    · rcases List.mem_cons.1 h1 with rfl | h2
      · exact Or.inl (List.mem_cons_self _ _)
      · rcases ih _ _ l h2 with h3 | h3
        · exact Or.inl (List.mem_cons_of_mem _ h3)
        · exact Or.inr h3

theorem walkLines_listItems (ls : List Bytes)
    (h : ∀ l ∈ ls, isListStart (TrimSpace l) = true) :
    ∀ (prev : Option Bytes) (flag : Bool),
      (∀ p, prev = some p → isListStart (TrimSpace p) = true) →
        walkLines prev flag ls = ls := by
  induction ls with
  | nil => intro prev flag _; rfl
  | cons l ls ih =>
    intro prev flag hprev
    have hins : insertsAfter prev flag l = false := by
      cases prev with
      | none => simp [insertsAfter]
      | some p => simp [insertsAfter, hprev p rfl]
    rw [walkLines, hins,
      ih (fun x hx => h x (List.mem_cons_of_mem _ hx)) (some l) _
        (fun p hp => by
          cases hp
          exact h l (List.mem_cons_self _ _))]
    simp

/-! ## `isListStart` against its specification -/

theorem HasPrefix_gt_cons (c : Nat) (cs : Bytes) :
    HasPrefix (c :: cs) (ascii ">") = decide (c = 62) := by
  show ([62] : List Nat).isPrefixOf (c :: cs) = decide (c = 62)
  by_cases h : c = 62
  · subst h; simp [List.isPrefixOf]
  · have h' : ¬ (62 = c) := fun e => h e.symm
    simp [List.isPrefixOf, h, h']

theorem HasPrefix_gt_nil : HasPrefix [] (ascii ">") = false := rfl

theorem TrimLeft_spaceTab (cs : Bytes) :
    TrimLeft cs (ascii " \t") = cs.dropWhile (fun b => b == 32 || b == 9) := by
  unfold TrimLeft
  congr 1
  funext b
  show ([32, 9] : List Nat).contains b = (b == 32 || b == 9)
  simp only [List.contains, List.elem]
  cases b == 32 <;> cases b == 9 <;> rfl

theorem TrimPrefix_gt (cs : Bytes) : TrimPrefix (62 :: cs) (ascii ">") = cs := by
  unfold TrimPrefix
  rw [HasPrefix_gt_cons]
  rfl

theorem stripQuoteLoop_spec (fuel : Nat) :
    ∀ line : Bytes, line.length ≤ fuel → StripsTo line (stripQuoteLoop fuel line) := by
  induction fuel with
  | zero =>
    intro line h
    have : line = [] := List.length_eq_zero.1 (Nat.le_zero.1 h)
    subst this
    exact StripsTo.done [] (fun cs h => by cases h)
  | succ fuel ih =>
    intro line h
    cases line with
    | nil => exact StripsTo.done [] (fun cs h => by cases h)
    | cons c cs =>
      unfold stripQuoteLoop
      rw [HasPrefix_gt_cons]
      by_cases hc : c = 62
      · subst hc
        simp only [decide_True, if_true]
        rw [TrimPrefix_gt, TrimLeft_spaceTab]
        refine StripsTo.step cs _ (ih _ ?_)
        have := (List.dropWhile_sublist (fun b => b == 32 || b == 9) (l := cs)).length_le
        simp only [List.length_cons] at h
        omega
      · simp only [hc, decide_False, Bool.false_eq_true, if_false]
        exact StripsTo.done _ (fun cs' h' => hc (by injection h'))

theorem StripsTo_unique {line r1 r2 : Bytes} (h1 : StripsTo line r1) (h2 : StripsTo line r2) :
    r1 = r2 := by
  induction h1 with
  | done rest hne =>
    cases h2 with
    | done _ _ => rfl
    | step cs _ _ => exact absurd rfl (hne cs)
  | step cs rest _ ih =>
    cases h2 with
    | done _ hne => exact absurd rfl (hne cs)
    | step _ _ h => exact ih h

theorem StripsTo_mem {line rest : Bytes} (h : StripsTo line rest) : ∀ b ∈ rest, b ∈ line := by
  induction h with
  | done rest _ => intro b hb; exact hb
  | step cs rest _ ih =>
    intro b hb
    exact List.mem_cons_of_mem _ ((List.dropWhile_sublist _).subset (ih b hb))

theorem orderedLoop_iff (rest : Bytes) : ∀ n : Nat,
    orderedLoop rest n = true ↔
      ∃ ds c tail, (∀ d ∈ ds, 48 ≤ d ∧ d ≤ 57) ∧ 0 < n + ds.length ∧ (c = 46 ∨ c = 41)
        ∧ rest = ds ++ c :: 32 :: tail := by
  induction rest with
  | nil =>
    intro n
    simp only [orderedLoop, Bool.false_eq_true, false_iff]
    rintro ⟨ds, c, tail, _, _, _, h⟩
    cases ds <;> simp at h
  | cons x xs ih =>
    intro n
    unfold orderedLoop
    by_cases hx : 48 ≤ x ∧ x ≤ 57
    · rw [if_pos hx, ih]
      constructor
      · rintro ⟨ds, c, tail, hds, _, hc, rfl⟩
        refine ⟨x :: ds, c, tail, ?_, by simp, hc, rfl⟩
        intro d hd
        rcases List.mem_cons.1 hd with rfl | hd
        · exact hx
        · exact hds d hd
      · rintro ⟨ds, c, tail, hds, _, hc, h⟩
        cases ds with
        | nil =>
          simp only [List.nil_append, List.cons.injEq] at h
          rcases hc with rfl | rfl <;> omega
        | cons d ds =>
          simp only [List.cons_append, List.cons.injEq] at h
          refine ⟨ds, c, tail, fun e he => hds e (List.mem_cons_of_mem _ he), ?_, hc, h.2⟩
          omega
    · rw [if_neg hx]
      constructor
      · intro h
        split at h
        · next hn =>
          cases xs with
          | nil => simp at h
          | cons d tl =>
            simp only [beq_iff_eq] at h
            subst h
            exact ⟨[], x, tl, by simp, by simpa using hn.1, hn.2, rfl⟩
        · simp at h
      · rintro ⟨ds, c, tail, hds, hpos, hc, h⟩
        cases ds with
        | nil =>
          simp only [List.nil_append, List.cons.injEq] at h
          obtain ⟨rfl, rfl⟩ := h
          simp only [List.length_nil, Nat.add_zero] at hpos
          rw [if_pos ⟨hpos, hc⟩]
          rfl
        | cons d ds =>
          simp only [List.cons_append, List.cons.injEq] at h
          exact absurd (h.1 ▸ hds d (List.mem_cons_self _ _)) hx


theorem isListStart_eq (line : Bytes) :
    isListStart line = markerAt (stripQuoteLoop line.length line) := by
  cases line with
  | nil => rfl
  | cons c cs => rfl

theorem BeginsOrdered_iff (rest : Bytes) : orderedLoop rest 0 = true ↔ BeginsOrdered rest := by
  rw [orderedLoop_iff]
  unfold BeginsOrdered
  constructor
  · rintro ⟨ds, c, tail, hds, hpos, hc, h⟩
    refine ⟨ds, c, tail, ?_, hds, hc, h⟩
    intro hnil
    subst hnil
    simp at hpos
  · rintro ⟨ds, c, tail, hne, hds, hc, h⟩
    refine ⟨ds, c, tail, hds, ?_, hc, h⟩
    have := List.length_pos.2 hne
    omega

theorem not_orderedLoop_of_unordered (c : Nat) (tail : Bytes) (n : Nat)
    (hc : c = 45 ∨ c = 42 ∨ c = 43) : orderedLoop (c :: tail) n = false := by
  unfold orderedLoop
  rcases hc with rfl | rfl | rfl <;> simp

theorem markerAt_iff (rest : Bytes) :
    markerAt rest = true ↔ (BeginsUnordered rest ∨ BeginsOrdered rest) := by
  rw [← BeginsOrdered_iff]
  unfold markerAt BeginsUnordered
  cases rest with
  | nil => simp [orderedLoop]
  | cons c0 tl =>
    cases tl with
    | nil =>
      simp only [List.length_singleton, one_ne_zero, if_false]
      constructor
      · intro h; exact Or.inr h
      · rintro (⟨c, tail, _, h⟩ | h)
        · simp at h
        · exact h
    | cons c1 tl =>
      simp only [List.length_cons, Nat.add_one_ne_zero, if_false]
      by_cases hm : (c0 = 45 ∨ c0 = 42 ∨ c0 = 43) ∧ c1 = 32
      · rw [if_pos hm]
        simp only [true_iff]
        exact Or.inl ⟨c0, tl, hm.1, by rw [hm.2]⟩
      · rw [if_neg hm]
        constructor
        · intro h; exact Or.inr h
        · rintro (⟨c, tail, hc, h⟩ | h)
          · simp only [List.cons.injEq] at h
            exact absurd ⟨h.1 ▸ hc, h.2.1⟩ hm
          · exact h

theorem isListStart_iff (line : Bytes) : isListStart line = true ↔ SpecListStart line := by
  rw [isListStart_eq, markerAt_iff]
  have hs := stripQuoteLoop_spec line.length line (Nat.le_refl _)
  constructor
  · intro h
    exact ⟨_, hs, h⟩
  · rintro ⟨rest, hr, h⟩
    rw [StripsTo_unique hs hr]
    exact h

theorem isListStart_markersOnly (line : Bytes) (h : ∀ b ∈ line, b = 62 ∨ b = 32 ∨ b = 9) :
    isListStart line = false := by
  rw [Bool.eq_false_iff]
  intro ht
  obtain ⟨rest, hr, hb⟩ := (isListStart_iff line).1 ht
  have hmem := StripsTo_mem hr
  rcases hb with ⟨c, tail, hc, rfl⟩ | ⟨ds, c, tail, hne, hds, _, rfl⟩
  · have := h c (hmem c (List.mem_cons_self _ _))
    omega
  · cases ds with
    | nil => exact hne rfl
    | cons d ds =>
      have h1 := h d (hmem d (by simp))
      have h2 := hds d (List.mem_cons_self _ _)
      omega

/-! ## The bounded loops run to their end -/

theorem leadingSpaceWidth_nil : leadingSpaceWidth [] = 0 := by decide

theorem trailingSpaceWidth_nil : trailingSpaceWidth [] = 0 := by decide

theorem trimSpaceLeft_done (fuel : Nat) :
    ∀ s : Bytes, s.length ≤ fuel → leadingSpaceWidth (trimSpaceLeft fuel s) = 0 := by
  induction fuel with
  | zero =>
    intro s h
    rw [List.length_eq_zero.1 (Nat.le_zero.1 h)]
    exact leadingSpaceWidth_nil
  | succ fuel ih =>
    intro s h
    unfold trimSpaceLeft
    by_cases hw : leadingSpaceWidth s = 0
    · rw [if_pos hw]; exact hw
    · rw [if_neg hw]
      apply ih
      rw [List.length_drop]
      omega

theorem trimSpaceRight_done (fuel : Nat) :
    ∀ s : Bytes, s.length ≤ fuel → trailingSpaceWidth (trimSpaceRight fuel s) = 0 := by
  induction fuel with
  | zero =>
    intro s h
    rw [List.length_eq_zero.1 (Nat.le_zero.1 h)]
    exact trailingSpaceWidth_nil
  | succ fuel ih =>
    intro s h
    unfold trimSpaceRight
    by_cases hw : trailingSpaceWidth s = 0
    · rw [if_pos hw]; exact hw
    · rw [if_neg hw]
      apply ih
      rw [List.length_take]
      omega

theorem trimSpaceLeft_length (fuel : Nat) :
    ∀ s : Bytes, (trimSpaceLeft fuel s).length ≤ s.length := by
  induction fuel with
  | zero => intro s; exact Nat.le_refl _
  | succ fuel ih =>
    intro s
    unfold trimSpaceLeft
    split
    · exact Nat.le_refl _
    · exact Nat.le_trans (ih _) (by rw [List.length_drop]; omega)

theorem TrimSpace_no_trailing_space (s : Bytes) : trailingSpaceWidth (TrimSpace s) = 0 :=
  trimSpaceRight_done s.length _ (trimSpaceLeft_length s.length s)

theorem matchShortcode_pos {s : Bytes} {n : Nat} (h : matchShortcode s = some n) : 2 ≤ n := by
  unfold matchShortcode at h
  split at h
  · simp only [] at h
    split at h
    · cases h; omega
    · cases h
  · cases h

theorem replaceAllShortcodes_fuel (repl : Bytes → Bytes) (fuel1 : Nat) :
    ∀ (fuel2 : Nat) (s : Bytes), s.length ≤ fuel1 → s.length ≤ fuel2 →
      replaceAllShortcodes repl fuel1 s = replaceAllShortcodes repl fuel2 s := by
  induction fuel1 with
  | zero =>
    intro fuel2 s h1 _
    rw [List.length_eq_zero.1 (Nat.le_zero.1 h1)]
    cases fuel2 <;> rfl
  | succ fuel1 ih =>
    intro fuel2 s h1 h2
    cases s with
    | nil => cases fuel2 <;> rfl
    | cons c cs =>
      cases fuel2 with
      | zero => simp at h2
      | succ fuel2 =>
        simp only [List.length_cons, Nat.add_le_add_iff_right] at h1 h2
        simp only [replaceAllShortcodes]
        cases hm : matchShortcode (c :: cs) with
        | none =>
          simp only []
          rw [ih fuel2 cs h1 h2]
        | some n =>
          simp only []
          have hn := matchShortcode_pos hm
          have hl : ((c :: cs).drop n).length ≤ cs.length := by
            rw [List.length_drop, List.length_cons]
            omega
          rw [ih fuel2 _ (Nat.le_trans hl h1) (Nat.le_trans hl h2)]

/-! ## Node accessors -/

theorem kind_mk (k : NodeKind) (l : Bytes) (cs : List Node) : (Node.mk k l cs).kind = k := rfl

theorem literal_mk (k : NodeKind) (l : Bytes) (cs : List Node) :
    (Node.mk k l cs).literal = l := rfl

theorem children_mk (k : NodeKind) (l : Bytes) (cs : List Node) :
    (Node.mk k l cs).children = cs := rfl

/-! ## Prefixes and the alert tokens -/

theorem HasPrefix_append (pre rest : Bytes) : HasPrefix (pre ++ rest) pre = true := by
  unfold HasPrefix
  rw [List.isPrefixOf_iff_prefix]
  exact List.prefix_append pre rest

theorem CutPrefix_append (pre rest : Bytes) : CutPrefix (pre ++ rest) pre = (rest, true) := by
  unfold CutPrefix
  rw [HasPrefix_append]
  simp

theorem HasPrefix_of_both {s a b : Bytes} (ha : HasPrefix s a = true)
    (hb : HasPrefix s b = true) : a <+: b ∨ b <+: a := by
  unfold HasPrefix at ha hb
  rw [List.isPrefixOf_iff_prefix] at ha hb
  rcases Nat.le_total a.length b.length with h | h
  · exact Or.inl (List.prefix_of_prefix_length_le ha hb h)
  · exact Or.inr (List.prefix_of_prefix_length_le hb ha h)

theorem alertToken_prefix_free :
    ∀ a ∈ blockquotes, ∀ b ∈ blockquotes, alertToken a <+: alertToken b → a = b := by
  decide

theorem alertToken_unique {content a b : Bytes} (ha : a ∈ blockquotes) (hb : b ∈ blockquotes)
    (hpa : HasPrefix content (alertToken a) = true)
    (hpb : HasPrefix content (alertToken b) = true) : a = b := by
  rcases HasPrefix_of_both hpa hpb with h | h
  · exact alertToken_prefix_free a ha b hb h
  · exact (alertToken_prefix_free b hb a ha h).symm

theorem ToLower_ne_nil : ∀ b ∈ blockquotes, ToLower b ≠ [] := by
  decide

theorem alertFold_noMatch (content : Bytes) (bs : List Bytes)
    (h : ∀ b ∈ bs, HasPrefix content (alertToken b) = false) (init : Bytes) :
    bs.foldl (fun alert b => if HasPrefix content (alertToken b) then ToLower b else alert)
      init = init := by
  induction bs generalizing init with
  | nil => rfl
  | cons b bs ih =>
    rw [List.foldl_cons, h b (List.mem_cons_self _ _)]
    exact ih (fun x hx => h x (List.mem_cons_of_mem _ hx)) init

theorem alertFold_match (content K : Bytes) (bs : List Bytes) (hK : K ∈ bs)
    (hm : HasPrefix content (alertToken K) = true)
    (hu : ∀ b ∈ bs, HasPrefix content (alertToken b) = true → b = K) (init : Bytes) :
    bs.foldl (fun alert b => if HasPrefix content (alertToken b) then ToLower b else alert)
      init = ToLower K := by
  induction bs generalizing init with
  | nil => cases hK
  | cons b bs ih =>
    rw [List.foldl_cons]
    by_cases hKbs : K ∈ bs
    · exact ih hKbs (fun x hx => hu x (List.mem_cons_of_mem _ hx)) _
    · have hb : K = b := by
        rcases List.mem_cons.1 hK with h | h
        · exact h
        · exact absurd h hKbs
      subst hb
      rw [hm, alertFold_noMatch]
      · rfl
      · intro x hx
        rw [← Bool.not_eq_true]
        intro hxm
        exact hKbs (hu x (List.mem_cons_of_mem _ hx) hxm ▸ hx)

theorem alertOf_match (content K : Bytes) (hK : K ∈ blockquotes)
    (hm : HasPrefix content (alertToken K) = true) : alertOf content = ToLower K :=
  alertFold_match content K blockquotes hK hm
    (fun _ hb hbm => alertToken_unique hb hK hbm hm) []

theorem alertOf_noMatch (content : Bytes)
    (h : ∀ b ∈ blockquotes, HasPrefix content (alertToken b) = false) :
    alertOf content = [] :=
  alertFold_noMatch content blockquotes h []

theorem alertOf_eq_nil_iff (content : Bytes) :
    alertOf content = [] ↔ ∀ b ∈ blockquotes, HasPrefix content (alertToken b) = false := by
  constructor
  · intro h b hb
    rw [← Bool.not_eq_true]
    intro hm
    exact ToLower_ne_nil b hb (alertOf_match content b hb hm ▸ h)
  · exact alertOf_noMatch content

/-! ## Claims about `preprocessMarkdown` -/

/-- C1: for every document, split into lines on the line feed, the loop of
`preprocessMarkdown` appends in iteration `i` one empty line followed by input line `i`
when `insertsBefore` holds at `i`, and input line `i` alone otherwise; `insertsBefore`
holds at `i` exactly when `i` is not the first line, line `i` is not a fence delimiter and
is reached with the fence flag closed, the previous line is non-blank after trimming,
line `i` trimmed starts a list and the previous line trimmed does not. The output is the
input with just these empty lines woven in, and nothing is inserted before the first
line. -/
theorem C1_preprocessMarkdown_inserts_exactly (md : Bytes) :
    (∀ i, (loopUpTo (Split md) (i + 1)).result =
        (loopUpTo (Split md) i).result ++
          ((if insertsBefore (Split md) i then [[]] else []) ++ [(Split md).getD i []]))
    ∧ Split (preprocessMarkdown md) = weave (insertsBefore (Split md)) (Split md)
    ∧ preprocessMarkdown md = Join (weave (insertsBefore (Split md)) (Split md))
    ∧ insertsBefore (Split md) 0 = false
    ∧ ∀ i, insertsBefore (Split md) i = true ↔
        (i ≠ 0 ∧ isFence ((Split md).getD i []) = false
          ∧ fenceOpenBefore (Split md) i = false
          ∧ TrimSpace ((Split md).getD (i - 1) []) ≠ []
          ∧ isListStart (TrimSpace ((Split md).getD i [])) = true
          ∧ isListStart (TrimSpace ((Split md).getD (i - 1) [])) = false) := by
  refine ⟨fun i => loopUpTo_succ_result _ i, ?_, ?_, ?_, ?_⟩
  · rw [Split_preprocessMarkdown, preprocessLines_eq_weave]
  · unfold preprocessMarkdown
    rw [preprocessLines_eq_weave]
  · simp [insertsBefore]
  · intro i
    simp [insertsBefore, and_assoc]

/-- C3: `preprocessMarkdown` is idempotent on every document. -/
theorem C3_preprocessMarkdown_idempotent (md : Bytes) :
    preprocessMarkdown (preprocessMarkdown md) = preprocessMarkdown md :=
  preprocessMarkdown_idem md

/-- C4: for every document the output lines are the input lines, unchanged and in order,
with at most one empty line put before each of them: the output is `weave ins` of the
input for some choice `ins` of the lines that get an empty line before them. Hence the
input lines are a sublist of the output lines, every output line is an input line or
empty, and joining the input lines gives back the document. -/
theorem C4_preprocessMarkdown_only_adds_empty_lines (md : Bytes) :
    (∃ ins : Nat → Bool,
        Split (preprocessMarkdown md) = weave ins (Split md)
        ∧ preprocessMarkdown md = Join (weave ins (Split md)))
    ∧ (Split md).Sublist (Split (preprocessMarkdown md))
    ∧ (∀ l ∈ Split (preprocessMarkdown md), l ∈ Split md ∨ l = [])
    ∧ Join (Split md) = md := by
  refine ⟨⟨insertsBefore (Split md), ?_, ?_⟩, ?_, ?_, Join_Split md⟩
  · rw [Split_preprocessMarkdown, preprocessLines_eq_weave]
  · unfold preprocessMarkdown
    rw [preprocessLines_eq_weave]
  · rw [Split_preprocessMarkdown, preprocessLines_eq_walkLines]
    exact sublist_walkLines _ _ _
  · rw [Split_preprocessMarkdown, preprocessLines_eq_walkLines]
    exact mem_walkLines _ _ _

/-- C6: the fence flag of the loop is `fenceOpenBefore` (closed at the start, toggled by
every delimiter line), and for every line `i` that is a delimiter or is reached with the
flag open the iteration appends exactly that line, unmodified, with no empty line before
it, whatever the line and its predecessor look like. -/
theorem C6_fenced_lines_pass_through (md : Bytes) (i : Nat)
    (h : isFence ((Split md).getD i []) = true ∨ fenceOpenBefore (Split md) i = true) :
    (loopUpTo (Split md) i).inCodeBlock = fenceOpenBefore (Split md) i
    ∧ (loopUpTo (Split md) (i + 1)).result =
        (loopUpTo (Split md) i).result ++ [(Split md).getD i []] := by
  refine ⟨loopUpTo_inCodeBlock _ i, ?_⟩
  have hins : insertsBefore (Split md) i = false := by
    rcases h with h | h <;> simp [insertsBefore, -List.getD_eq_getElem?_getD, h]
  rw [loopUpTo_succ_result, chunk, hins]
  simp

theorem C6_witness :
    (loopUpTo (Split (ascii "```\nText\n- Not a list\n```")) 2).inCodeBlock
        = fenceOpenBefore (Split (ascii "```\nText\n- Not a list\n```")) 2
    ∧ (loopUpTo (Split (ascii "```\nText\n- Not a list\n```")) (2 + 1)).result =
        (loopUpTo (Split (ascii "```\nText\n- Not a list\n```")) 2).result ++
          [(Split (ascii "```\nText\n- Not a list\n```")).getD 2 []] :=
  C6_fenced_lines_pass_through (ascii "```\nText\n- Not a list\n```") 2 (Or.inr (by decide))

/-- C7 as stated fails: in the document "a", "- " the second line is outside a fence,
`isListStart` holds of it as it appears, and it follows a non-blank line that is no list
start, yet no empty line is put before it (its trimmed form "-" is no list start); and in
"  - x", "- y" the first line as it appears is no list start, yet nothing is inserted. -/
theorem C7_counterexample :
    (isListStart ((Split (ascii "a\n- ")).getD 1 []) = true
      ∧ isFence ((Split (ascii "a\n- ")).getD 1 []) = false
      ∧ fenceOpenBefore (Split (ascii "a\n- ")) 1 = false
      ∧ TrimSpace ((Split (ascii "a\n- ")).getD 0 []) ≠ []
      ∧ isListStart ((Split (ascii "a\n- ")).getD 0 []) = false
      ∧ (loopUpTo (Split (ascii "a\n- ")) 2).result =
          (loopUpTo (Split (ascii "a\n- ")) 1).result ++ [ascii "- "]
      ∧ preprocessMarkdown (ascii "a\n- ") = ascii "a\n- ")
    ∧ (isListStart ((Split (ascii "  - x\n- y")).getD 1 []) = true
      ∧ isFence ((Split (ascii "  - x\n- y")).getD 1 []) = false
      ∧ fenceOpenBefore (Split (ascii "  - x\n- y")) 1 = false
      ∧ TrimSpace ((Split (ascii "  - x\n- y")).getD 0 []) ≠ []
      ∧ isListStart ((Split (ascii "  - x\n- y")).getD 0 []) = false
      ∧ preprocessMarkdown (ascii "  - x\n- y") = ascii "  - x\n- y") := by
  decide

/-- C7, amended: for every document and every line `i` after the first that is no fence
delimiter and is reached with the fence flag closed, if the previous line is non-blank
after trimming and its trimmed form is no list start, and the trimmed form of line `i` is
a list start, then the iteration appends an empty line directly followed by line `i`. -/
theorem C7_blank_line_before_trimmed_list_start (md : Bytes) (i : Nat) (hi : 0 < i)
    (hf : isFence ((Split md).getD i []) = false)
    (ho : fenceOpenBefore (Split md) i = false)
    (hp : TrimSpace ((Split md).getD (i - 1) []) ≠ [])
    (hpl : isListStart (TrimSpace ((Split md).getD (i - 1) [])) = false)
    (hl : isListStart (TrimSpace ((Split md).getD i [])) = true) :
    (loopUpTo (Split md) (i + 1)).result =
      (loopUpTo (Split md) i).result ++ [[], (Split md).getD i []] := by
  have hins : insertsBefore (Split md) i = true := by
    have hi0 : i ≠ 0 := by omega
    simp [insertsBefore, -List.getD_eq_getElem?_getD, hi0, hf, ho, hp, hpl, hl]
  rw [loopUpTo_succ_result, chunk, hins]
  simp

theorem C7_witness :
    (loopUpTo (Split (ascii "Some text.\n- Item 1\n- Item 2")) (1 + 1)).result =
      (loopUpTo (Split (ascii "Some text.\n- Item 1\n- Item 2")) 1).result ++
        [[], (Split (ascii "Some text.\n- Item 1\n- Item 2")).getD 1 []] :=
  C7_blank_line_before_trimmed_list_start (ascii "Some text.\n- Item 1\n- Item 2") 1
    (by decide) (by decide) (by decide) (by decide) (by decide) (by decide)

/-- C8 as stated fails: in the document "- ", "- b" both lines are list starts as they
appear, yet an empty line is put between them (the first line trimmed is "-", which is
no list start). -/
theorem C8_counterexample :
    isListStart ((Split (ascii "- \n- b")).getD 0 []) = true
    ∧ isListStart ((Split (ascii "- \n- b")).getD 1 []) = true
    ∧ (loopUpTo (Split (ascii "- \n- b")) 2).result =
        (loopUpTo (Split (ascii "- \n- b")) 1).result ++ [[], ascii "- b"]
    ∧ preprocessMarkdown (ascii "- \n- b") = ascii "- \n\n- b" := by
  decide

/-- C8, amended: for every document and every pair of consecutive lines whose trimmed
forms both start a list, the iteration for the second line appends that line alone (no
empty line between the two); and a document all of whose lines, trimmed, start a list is
returned unchanged. -/
theorem C8_no_blank_line_between_list_items (md : Bytes) :
    (∀ i, 0 < i →
        isListStart (TrimSpace ((Split md).getD (i - 1) [])) = true →
        isListStart (TrimSpace ((Split md).getD i [])) = true →
        (loopUpTo (Split md) (i + 1)).result =
          (loopUpTo (Split md) i).result ++ [(Split md).getD i []])
    ∧ ((∀ l ∈ Split md, isListStart (TrimSpace l) = true) → preprocessMarkdown md = md) := by
  constructor
  · intro i _ hp _
    have hins : insertsBefore (Split md) i = false := by
      simp [insertsBefore, -List.getD_eq_getElem?_getD, hp]
    rw [loopUpTo_succ_result, chunk, hins]
    simp
  · intro h
    unfold preprocessMarkdown
    rw [preprocessLines_eq_walkLines, walkLines_listItems _ h none false (by simp),
      Join_Split]

theorem C8_witness :
    (loopUpTo (Split (ascii "- Item 1\n- Item 2\n- Item 3")) (1 + 1)).result =
        (loopUpTo (Split (ascii "- Item 1\n- Item 2\n- Item 3")) 1).result ++
          [(Split (ascii "- Item 1\n- Item 2\n- Item 3")).getD 1 []]
    ∧ preprocessMarkdown (ascii "- Item 1\n- Item 2\n- Item 3")
        = ascii "- Item 1\n- Item 2\n- Item 3" :=
  ⟨(C8_no_blank_line_between_list_items (ascii "- Item 1\n- Item 2\n- Item 3")).1 1
      (by decide) (by decide) (by decide),
   (C8_no_blank_line_between_list_items (ascii "- Item 1\n- Item 2\n- Item 3")).2
      (by decide)⟩

/-! ## Claims about `isListStart` -/

/-- C5: `isListStart` returns true exactly for the lines that, after repeatedly
stripping a leading block-quote marker together with the spaces and tabs that follow it,
begin with minus, asterisk or plus followed by a space, or with one or more decimal
digits followed by a full stop or closing parenthesis followed by a space
(`SpecListStart`); it is false for the empty line and for every line made only of
block-quote markers, spaces and tabs; and it gives the documented truth table. -/
theorem C5_isListStart_characterisation :
    (∀ line, isListStart line = true ↔ SpecListStart line)
    ∧ (∀ line, isListStart line = false ↔ ¬ SpecListStart line)
    ∧ isListStart [] = false
    ∧ (∀ line, (∀ b ∈ line, b = 62 ∨ b = 32 ∨ b = 9) → isListStart line = false)
    ∧ isListStart (ascii "- Item") = true
    ∧ isListStart (ascii "* Item") = true
    ∧ isListStart (ascii "+ Item") = true
    ∧ isListStart (ascii "1. Item") = true
    ∧ isListStart (ascii "1) Item") = true
    ∧ isListStart (ascii "123. Item") = true
    ∧ isListStart (ascii "> - Item") = true
    ∧ isListStart (ascii "> 1. Item") = true
    ∧ isListStart (ascii "-Item") = false
    ∧ isListStart (ascii "-") = false
    ∧ isListStart (ascii "Regular text") = false
    ∧ isListStart (ascii "") = false
    ∧ isListStart (ascii "This - is text") = false
    ∧ isListStart (ascii "Version 1.5 released") = false := by
  refine ⟨isListStart_iff, ?_, rfl, isListStart_markersOnly, ?_⟩
  · intro line
    rw [← isListStart_iff, Bool.not_eq_true]
  · decide

theorem C5_witness : isListStart (ascii "> >\t>") = false :=
  C5_isListStart_characterisation.2.2.2.1 (ascii "> >\t>") (by decide)

/-! ## Claims about the render hooks -/

/-- C2 (what the code does): for a text node whose parent is a paragraph inside a list
item and whose emoji-substituted content is the checked task marker followed by `rest`,
`renderHookText` writes the checked check box and `rest` and then, for want of a
`return` after that write, the whole emoji-substituted content once more. -/
theorem C2_checked_task_text_written_twice (EmojiMap : Bytes → Option Bytes)
    (ancestors : List NodeKind) (literal rest : Bytes) (children : List Node)
    (h : withEmoji EmojiMap literal = ascii "[x]" ++ rest) :
    renderHookText EmojiMap (.Paragraph :: .ListItem :: ancestors)
        (.mk .Text literal children)
      = some { written := (checkboxChecked ++ rest) ++ (ascii "[x]" ++ rest),
               status := .GoToNext, consumed := true } := by
  have h1 : CutPrefix (ascii "[x]" ++ rest) (ascii "[ ]") = (ascii "[x]" ++ rest, false) := rfl
  simp [renderHookText, kind_mk, literal_mk, h, textTail, h1, CutPrefix_append]

theorem C2_witness :
    renderHookText emptyEnv.EmojiMap [.Paragraph, .ListItem, .Other]
        (.mk .Text (ascii "[x] done") [])
      = some { written := (checkboxChecked ++ ascii " done") ++ (ascii "[x]" ++ ascii " done"),
               status := .GoToNext, consumed := true } :=
  C2_checked_task_text_written_twice emptyEnv.EmojiMap [.Other] (ascii "[x] done")
    (ascii " done") [] (by decide)

/-- C9 as stated fails: for the block quote with the single paragraph "hi" the hook
consumes the block-quote node at entry and at exit and writes nothing, the paragraph hook
declines and writes nothing, and the walk emits the paragraph alone, with no block-quote
wrapper around it. -/
theorem C9_counterexample :
    renderHook emptyEnv []
        (.mk .BlockQuote [] [.mk .Paragraph [] [.mk .Text (ascii "hi") []]]) true
      = some { written := [], status := .GoToNext, consumed := true }
    ∧ renderHook emptyEnv []
        (.mk .BlockQuote [] [.mk .Paragraph [] [.mk .Text (ascii "hi") []]]) false
      = some { written := [], status := .GoToNext, consumed := true }
    ∧ renderHook emptyEnv [.BlockQuote] (.mk .Paragraph [] [.mk .Text (ascii "hi") []]) true
      = some { written := [], status := .GoToNext, consumed := false }
    ∧ renderHook emptyEnv [.BlockQuote] (.mk .Paragraph [] [.mk .Text (ascii "hi") []]) false
      = some { written := [], status := .GoToNext, consumed := false }
    ∧ renderWalk emptyEnv exampleHTML []
        (.mk .BlockQuote [] [.mk .Paragraph [] [.mk .Text (ascii "hi") []]])
      = some (ascii "<p>hi</p>") := by
  decide

/-- C9, amended: the hook consumes every block-quote node at entry and at exit and writes
nothing, so the walk's output for a block quote is exactly the output of its children,
without the default wrapper; and for a paragraph of a block quote whose first child is a
text without a recognised alert token the paragraph hook declines and writes nothing, so
nothing is written in place of the wrapper. -/
theorem C9_block_quote_wrapper_suppressed (env : Env) (defaultHTML : Node → Bool → Bytes)
    (ancestors : List NodeKind) (literal : Bytes) (children : List Node) :
    (∀ entering, renderHook env ancestors (.mk .BlockQuote literal children) entering
        = some { written := [], status := .GoToNext, consumed := true })
    ∧ renderWalk env defaultHTML ancestors (.mk .BlockQuote literal children)
        = renderWalkList env defaultHTML (.BlockQuote :: ancestors) children
    ∧ (∀ (plit : Bytes) (t : Node) (ts : List Node) (entering : Bool),
        t.kind = .Text →
        (∀ K ∈ blockquotes, HasPrefix t.literal (alertToken K) = false) →
        renderHook env (.BlockQuote :: ancestors) (.mk .Paragraph plit (t :: ts)) entering
          = some { written := [], status := .GoToNext, consumed := false }) := by
  refine ⟨fun _ => rfl, ?_, ?_⟩
  · rw [renderWalk]
    simp only [renderVisit, renderHook, kind_mk, renderHookBlockQuote, NodeKind.isLeaf]
    cases renderWalkList env defaultHTML (.BlockQuote :: ancestors) children <;> simp
  · intro plit t ts entering ht hno
    simp [renderHook, renderHookParagraph, kind_mk, children_mk, ht,
      alertOf_noMatch _ hno]

theorem C9_witness :
    renderHook emptyEnv [.BlockQuote] (.mk .Paragraph [] [.mk .Text (ascii "hi") []]) true
      = some { written := [], status := .GoToNext, consumed := false } :=
  (C9_block_quote_wrapper_suppressed emptyEnv exampleHTML [] [] []).2.2 []
    (.mk .Text (ascii "hi") []) [] true rfl (by decide)

/-- C10: for every paragraph node with at least one child and either value of
`entering`, `renderHookParagraph` returns (it does not panic) with status `GoToNext`; it
returns consumed = true exactly when the parent is a block quote, the first child is a
text node and its literal begins with the alert token of some kind `K` of `blockquotes`;
then it writes the opening fragment `createBlockquoteStart` gives for the lower-cased `K`
at entry and the closing `div` tag at exit; otherwise it writes nothing. -/
theorem C10_renderHookParagraph_decision (execTemplate : Bytes → Bytes → Option Bytes)
    (ancestors : List NodeKind) (literal : Bytes) (c : Node) (cs : List Node)
    (entering : Bool) :
    ∃ r, renderHookParagraph execTemplate ancestors (.mk .Paragraph literal (c :: cs)) entering
        = some r
      ∧ r.status = .GoToNext
      ∧ (r.consumed = true ↔
          (ancestors.head? = some .BlockQuote ∧ c.kind = .Text
            ∧ ∃ K ∈ blockquotes, HasPrefix c.literal (alertToken K) = true))
      ∧ (∀ K ∈ blockquotes, ancestors.head? = some .BlockQuote → c.kind = .Text →
          HasPrefix c.literal (alertToken K) = true →
          r.written = if entering then (createBlockquoteStart execTemplate (ToLower K)).1
            else ascii "</div>")
      ∧ (r.consumed = false → r.written = []) := by
  by_cases hp : ancestors.head? = some .BlockQuote
  · by_cases hk : c.kind = .Text
    · by_cases hm : ∃ K ∈ blockquotes, HasPrefix c.literal (alertToken K) = true
      · obtain ⟨K, hK, hKm⟩ := hm
        have ha : alertOf c.literal = ToLower K := alertOf_match _ K hK hKm
        have hne : ToLower K ≠ [] := ToLower_ne_nil K hK
        cases entering
        · refine ⟨{ written := ascii "</div>", status := .GoToNext, consumed := true },
            ?_, rfl, ?_, ?_, ?_⟩
          · simp [renderHookParagraph, kind_mk, children_mk, hp, hk, ha, hne]
          · simp only [true_iff]
            exact ⟨hp, hk, K, hK, hKm⟩
          · intro K2 _ _ _ _
            rfl
          · intro h; cases h
        · refine ⟨{ written := (createBlockquoteStart execTemplate (ToLower K)).1,
                    status := .GoToNext, consumed := true }, ?_, rfl, ?_, ?_, ?_⟩
          · simp [renderHookParagraph, kind_mk, children_mk, hp, hk, ha, hne]
          · simp only [true_iff]
            exact ⟨hp, hk, K, hK, hKm⟩
          · intro K2 hK2 _ _ hK2m
            rw [alertToken_unique hK2 hK hK2m hKm]
            rfl
          · intro h; cases h
      · have hno : ∀ b ∈ blockquotes, HasPrefix c.literal (alertToken b) = false := by
          intro b hb
          rw [← Bool.not_eq_true]
          exact fun h => hm ⟨b, hb, h⟩
        refine ⟨{ written := [], status := .GoToNext, consumed := false }, ?_, rfl, ?_, ?_, ?_⟩
        · simp [renderHookParagraph, kind_mk, children_mk, hp, hk, alertOf_noMatch _ hno]
        · simp only [Bool.false_eq_true, false_iff]
          exact fun h => hm h.2.2
        · intro K hK _ _ hKm
          exact absurd ⟨K, hK, hKm⟩ hm
        · intro _; rfl
    · refine ⟨{ written := [], status := .GoToNext, consumed := false }, ?_, rfl, ?_, ?_, ?_⟩
      · simp [renderHookParagraph, kind_mk, children_mk, hp, hk]
      · simp only [Bool.false_eq_true, false_iff]
        exact fun h => hk h.2.1
      · intro K _ _ hk2 _
        exact absurd hk2 hk
      · intro _; rfl
  · refine ⟨{ written := [], status := .GoToNext, consumed := false }, ?_, rfl, ?_, ?_, ?_⟩
    · simp [renderHookParagraph, kind_mk, hp]
    · simp only [Bool.false_eq_true, false_iff]
      exact fun h => hp h.1
    · intro K _ hp2 _ _
      exact absurd hp2 hp
    · intro _; rfl

theorem C10_witness :
    ∃ r, renderHookParagraph exampleEnv.execTemplate [.BlockQuote]
        (.mk .Paragraph [] [.mk .Text (ascii "[!WARNING] careful") []]) true = some r
      ∧ r.consumed = true ∧ r.written = ascii "<div class=\"warning\">" := by
  obtain ⟨r, h1, _, h3, h4, _⟩ := C10_renderHookParagraph_decision exampleEnv.execTemplate
    [.BlockQuote] [] (.mk .Text (ascii "[!WARNING] careful") []) [] true
  exact ⟨r, h1, h3.2 ⟨rfl, rfl, ascii "Warning", by decide, by decide⟩,
    h4 (ascii "Warning") (by decide) rfl rfl (by decide)⟩

/-! ## Alert tokens are case-sensitive -/

theorem ToUpper_idem (s : Bytes) : ToUpper (ToUpper s) = ToUpper s := by
  unfold ToUpper
  rw [List.map_map]
  apply List.map_congr_left
  intro b _
  simp only [Function.comp]
  split
  · split
    · omega
    · rfl
  · rfl

theorem mem_ToUpper_bracket {s : Bytes} (h : 93 ∈ s) : 93 ∈ ToUpper s := by
  unfold ToUpper
  exact List.mem_map.2 ⟨93, h, by decide⟩

theorem blockquotes_no_bracket : ∀ K ∈ blockquotes, 93 ∉ ToUpper K := by decide

theorem ToUpper_inj_blockquotes :
    ∀ a ∈ blockquotes, ∀ b ∈ blockquotes, ToUpper a = ToUpper b → a = b := by decide

theorem HasPrefix_append_left (a x y : Bytes) : HasPrefix (a ++ x) (a ++ y) = HasPrefix x y := by
  unfold HasPrefix
  rw [Bool.eq_iff_iff, List.isPrefixOf_iff_prefix, List.isPrefixOf_iff_prefix]
  exact List.prefix_append_right_inj a

theorem alertToken_spelling {K K2 s rest : Bytes} (hK : K ∈ blockquotes)
    (hK2 : K2 ∈ blockquotes) (hs : ToUpper s = ToUpper K)
    (hp : HasPrefix (ascii "[!" ++ s ++ ascii "]" ++ rest) (alertToken K2) = true) :
    s = ToUpper K2 := by
  have hsb : 93 ∉ s := fun h => blockquotes_no_bracket K hK (hs ▸ mem_ToUpper_bracket h)
  have hkb : 93 ∉ ToUpper K2 := blockquotes_no_bracket K2 hK2
  unfold alertToken at hp
  rw [List.append_assoc, List.append_assoc, List.append_assoc, HasPrefix_append_left] at hp
  unfold HasPrefix at hp
  rw [List.isPrefixOf_iff_prefix] at hp
  obtain ⟨t, ht⟩ := hp
  have h93 : ascii "]" = [93] := rfl
  rw [h93, List.append_assoc] at ht
  simp only [List.singleton_append] at ht
  rcases List.append_eq_append_iff.1 ht with ⟨a, h1, h2⟩ | ⟨c, h1, h2⟩
  · cases a with
    | nil => simpa using h1
    | cons x a =>
      simp only [List.cons_append, List.cons.injEq] at h2
      exact absurd (by rw [h1, ← h2.1]; simp) hsb
  · cases c with
    | nil => simpa using h1.symm
    | cons x c =>
      simp only [List.cons_append, List.cons.injEq] at h2
      exact absurd (by rw [h1, ← h2.1]; simp) hkb


/-- C11 as stated fails: the token is compared byte for byte with the upper-case
spelling, so a block-quote paragraph whose first text begins with the lower-case or
mixed-case spelling is not recognised (the hook declines and writes nothing), while the
upper-case spelling is. -/
theorem C11_counterexample :
    renderHookParagraph exampleEnv.execTemplate [.BlockQuote]
        (.mk .Paragraph [] [.mk .Text (ascii "[!note] hi") []]) true
      = some { written := [], status := .GoToNext, consumed := false }
    ∧ renderHookParagraph exampleEnv.execTemplate [.BlockQuote]
        (.mk .Paragraph [] [.mk .Text (ascii "[!Warning] hi") []]) true
      = some { written := [], status := .GoToNext, consumed := false }
    ∧ renderHookParagraph exampleEnv.execTemplate [.BlockQuote]
        (.mk .Paragraph [] [.mk .Text (ascii "[!NOTE] hi") []]) true
      = some { written := ascii "<div class=\"note\">", status := .GoToNext,
               consumed := true } := by
  decide

/-- C11, amended: recognition is case-sensitive. For every kind `K` of `blockquotes` and
every spelling `s` of `K` (the same letters up to ASCII case), a block-quote paragraph
whose first text begins with the token spelt `s` is consumed exactly when `s` is the
upper-case spelling; then the hook writes the opening fragment for the lower-cased `K` at
entry and the closing `div` tag at exit; for every other spelling it declines and writes
nothing. -/
theorem C11_alert_token_case_sensitive (execTemplate : Bytes → Bytes → Option Bytes)
    (ancestors : List NodeKind) (K s rest plit : Bytes) (tcs cs : List Node) (entering : Bool)
    (hK : K ∈ blockquotes) (hs : ToUpper s = ToUpper K) :
    ∃ r, renderHookParagraph execTemplate (.BlockQuote :: ancestors)
        (.mk .Paragraph plit (.mk .Text (ascii "[!" ++ s ++ ascii "]" ++ rest) tcs :: cs))
        entering = some r
      ∧ (r.consumed = true ↔ s = ToUpper K)
      ∧ (s = ToUpper K →
          r.written = if entering then (createBlockquoteStart execTemplate (ToLower K)).1
            else ascii "</div>")
      ∧ (s ≠ ToUpper K → r.written = []) := by
  generalize hc : ascii "[!" ++ s ++ ascii "]" ++ rest = content
  by_cases hu : s = ToUpper K
  · have hm : HasPrefix content (alertToken K) = true := by
      rw [← hc, hu]
      exact HasPrefix_append (alertToken K) rest
    have ha := alertOf_match _ K hK hm
    have hne : ToLower K ≠ [] := ToLower_ne_nil K hK
    cases entering
    · refine ⟨{ written := ascii "</div>", status := .GoToNext, consumed := true },
        ?_, ?_, ?_, ?_⟩
      · simp [renderHookParagraph, kind_mk, children_mk, literal_mk, ha, hne]
      · simp [hu]
      · intro _; rfl
      · intro h; exact absurd hu h
    · refine ⟨{ written := (createBlockquoteStart execTemplate (ToLower K)).1,
                status := .GoToNext, consumed := true }, ?_, ?_, ?_, ?_⟩
      · simp [renderHookParagraph, kind_mk, children_mk, literal_mk, ha, hne]
      · simp [hu]
      · intro _; rfl
      · intro h; exact absurd hu h
  · have hno : ∀ b ∈ blockquotes, HasPrefix content (alertToken b) = false := by
      intro b hb
      rw [← Bool.not_eq_true]
      intro hm
      have h1 : s = ToUpper b := alertToken_spelling hK hb hs (hc ▸ hm)
      have h2 : ToUpper b = ToUpper K := by rw [← ToUpper_idem b, ← h1, hs]
      exact hu (by rw [h1, ToUpper_inj_blockquotes b hb K hK h2])
    refine ⟨{ written := [], status := .GoToNext, consumed := false }, ?_, ?_, ?_, ?_⟩
    · simp [renderHookParagraph, kind_mk, children_mk, literal_mk, alertOf_noMatch _ hno]
    · simp [hu]
    · intro h; exact absurd h hu
    · intro _; rfl

theorem C11_witness :
    ∃ r, renderHookParagraph exampleEnv.execTemplate [.BlockQuote]
        (.mk .Paragraph [] [.mk .Text (ascii "[!" ++ ascii "tIp" ++ ascii "]" ++ ascii " x") []])
        true = some r
      ∧ r.consumed = false ∧ r.written = [] := by
  obtain ⟨r, h1, h2, _, h4⟩ := C11_alert_token_case_sensitive exampleEnv.execTemplate []
    (ascii "Tip") (ascii "tIp") (ascii " x") [] [] [] true (by decide) (by decide)
  refine ⟨r, h1, ?_, h4 (by decide)⟩
  rw [← Bool.not_eq_true, h2]
  decide

/-! ## The alert round trip -/

theorem matchShortcode_cons_ne {c : Nat} (h : c ≠ 58) (cs : Bytes) :
    matchShortcode (c :: cs) = none := by
  unfold matchShortcode
  split
  · next rest heq =>
    simp only [List.cons.injEq] at heq
    exact absurd heq.1 h
  · rfl

theorem replaceAllShortcodes_append_noColon (repl : Bytes → Bytes) (P : Bytes)
    (hP : 58 ∉ P) (fuel : Nat) (rest : Bytes) :
    replaceAllShortcodes repl (P.length + fuel) (P ++ rest)
      = P ++ replaceAllShortcodes repl fuel rest := by
  induction P with
  | nil => simp
  | cons c P ih =>
    simp only [List.mem_cons, not_or] at hP
    have hc : c ≠ 58 := fun h => hP.1 h.symm
    have hlen : (c :: P).length + fuel = (P.length + fuel) + 1 := by
      simp only [List.length_cons]; omega
    rw [hlen, List.cons_append, replaceAllShortcodes, matchShortcode_cons_ne hc, ih hP.2]
    rfl

theorem withEmoji_append_noColon (EmojiMap : Bytes → Option Bytes) (P : Bytes)
    (hP : 58 ∉ P) (rest : Bytes) :
    withEmoji EmojiMap (P ++ rest) = P ++ withEmoji EmojiMap rest := by
  unfold withEmoji
  rw [List.length_append, replaceAllShortcodes_append_noColon _ P hP]

theorem alertToken_noColon : ∀ K ∈ blockquotes, 58 ∉ alertToken K := by decide

theorem cutAlertPrefix_noMatch (text : Bytes) (bs : List Bytes)
    (h : ∀ b ∈ bs, HasPrefix text (alertToken b) = false) : cutAlertPrefix text bs = none := by
  induction bs with
  | nil => rfl
  | cons b bs ih =>
    have hb := h b (List.mem_cons_self _ _)
    simp only [cutAlertPrefix, CutPrefix, hb, Bool.false_eq_true, if_false]
    exact ih (fun x hx => h x (List.mem_cons_of_mem _ hx))

theorem cutAlertPrefix_match (K r : Bytes) (bs : List Bytes) (hK : K ∈ bs)
    (hu : ∀ b ∈ bs, HasPrefix (alertToken K ++ r) (alertToken b) = true → b = K) :
    cutAlertPrefix (alertToken K ++ r) bs = some r := by
  induction bs with
  | nil => cases hK
  | cons b bs ih =>
    by_cases hb : HasPrefix (alertToken K ++ r) (alertToken b) = true
    · have hbK : b = K := hu b (List.mem_cons_self _ _) hb
      subst hbK
      simp only [cutAlertPrefix, CutPrefix_append, if_true]
    · have hne : K ≠ b := by
        intro h
        subst h
        exact hb (HasPrefix_append _ _)
      have hK2 : K ∈ bs := by
        rcases List.mem_cons.1 hK with h | h
        · exact absurd h hne
        · exact h
      rw [Bool.not_eq_true] at hb
      simp only [cutAlertPrefix, CutPrefix, hb, Bool.false_eq_true, if_false]
      exact ih hK2 (fun x hx => hu x (List.mem_cons_of_mem _ hx))

/-- C12: for every emoji table and every text literal made of the alert token of a kind
`K` of `blockquotes` followed by `rest`, in a text node that is the first child of a
paragraph of a block quote: `K` is the only kind whose token the literal begins with, and
the only one whose token the emoji-substituted content begins with, so the paragraph hook
(last match, on the literal) and the text hook (first match, on the substituted content)
both settle on `K`; the substitution of the whole literal is the token followed by the
substitution of `rest`; and the text hook writes exactly the substituted `rest`. When the
emoji-substituted content begins with no recognised token, the text hook writes it
unchanged. -/
theorem C12_alert_round_trip (execTemplate : Bytes → Bytes → Option Bytes)
    (EmojiMap : Bytes → Option Bytes) (ancestors : List NodeKind) (K rest plit : Bytes)
    (tcs cs : List Node) (hK : K ∈ blockquotes) :
    (∀ K2 ∈ blockquotes, HasPrefix (alertToken K ++ rest) (alertToken K2) = true → K2 = K)
    ∧ (∀ K2 ∈ blockquotes,
        HasPrefix (withEmoji EmojiMap (alertToken K ++ rest)) (alertToken K2) = true → K2 = K)
    ∧ alertOf (alertToken K ++ rest) = ToLower K
    ∧ renderHookParagraph execTemplate (.BlockQuote :: ancestors)
        (.mk .Paragraph plit (.mk .Text (alertToken K ++ rest) tcs :: cs)) true
      = some { written := (createBlockquoteStart execTemplate (ToLower K)).1,
               status := .GoToNext, consumed := true }
    ∧ withEmoji EmojiMap (alertToken K ++ rest) = alertToken K ++ withEmoji EmojiMap rest
    ∧ renderHookText EmojiMap (.Paragraph :: .BlockQuote :: ancestors)
        (.mk .Text (alertToken K ++ rest) tcs)
      = some { written := withEmoji EmojiMap rest, status := .GoToNext, consumed := true }
    ∧ (∀ literal : Bytes,
        (∀ K2 ∈ blockquotes, HasPrefix (withEmoji EmojiMap literal) (alertToken K2) = false) →
        renderHookText EmojiMap (.Paragraph :: .BlockQuote :: ancestors)
            (.mk .Text literal tcs)
          = some { written := withEmoji EmojiMap literal, status := .GoToNext,
                   consumed := true }) := by
  have hw := withEmoji_append_noColon EmojiMap (alertToken K) (alertToken_noColon K hK) rest
  have hm : HasPrefix (alertToken K ++ rest) (alertToken K) = true := HasPrefix_append _ _
  have hu1 : ∀ K2 ∈ blockquotes,
      HasPrefix (alertToken K ++ rest) (alertToken K2) = true → K2 = K :=
    fun K2 hK2 h => alertToken_unique hK2 hK h hm
  have hu2 : ∀ K2 ∈ blockquotes,
      HasPrefix (alertToken K ++ withEmoji EmojiMap rest) (alertToken K2) = true → K2 = K :=
    fun K2 hK2 h => alertToken_unique hK2 hK h (HasPrefix_append _ _)
  have ha := alertOf_match _ K hK hm
  refine ⟨hu1, ?_, ha, ?_, hw, ?_, ?_⟩
  · rw [hw]; exact hu2
  · simp [renderHookParagraph, kind_mk, children_mk, literal_mk, ha, ToLower_ne_nil K hK]
  · simp only [renderHookText, kind_mk, literal_mk, hw]
    simp [cutAlertPrefix_match K _ blockquotes hK hu2]
  · intro literal hno
    simp only [renderHookText, kind_mk, literal_mk]
    simp [cutAlertPrefix_noMatch _ _ hno, textTail]

theorem C12_witness :
    renderHookText exampleEnv.EmojiMap [.Paragraph, .BlockQuote]
        (.mk .Text (alertToken (ascii "Warning") ++ ascii " careful :smile:") [])
      = some { written := ascii " careful (smile)", status := .GoToNext, consumed := true }
    ∧ renderHookText exampleEnv.EmojiMap [.Paragraph, .BlockQuote]
        (.mk .Text (ascii "plain :smile: text") [])
      = some { written := ascii "plain (smile) text", status := .GoToNext,
               consumed := true } :=
  ⟨(C12_alert_round_trip exampleEnv.execTemplate exampleEnv.EmojiMap [] (ascii "Warning")
      (ascii " careful :smile:") [] [] [] (by decide)).2.2.2.2.2.1,
   (C12_alert_round_trip exampleEnv.execTemplate exampleEnv.EmojiMap [] (ascii "Warning")
      (ascii " careful :smile:") [] [] [] (by decide)).2.2.2.2.2.2
      (ascii "plain :smile: text") (by decide)⟩

/-! ## Task items -/

theorem CutPrefix_of_not {s pre : Bytes} (h : HasPrefix s pre = false) :
    CutPrefix s pre = (s, false) := by
  unfold CutPrefix
  rw [h]
  rfl

/-- C13: for every emoji table and every text node whose parent is a paragraph of a list
item: when the emoji-substituted content is the unchecked task marker followed by `rest`,
`renderHookText` writes exactly the unchecked check box followed by `rest`; when the
substituted content begins with neither task marker, it writes the substituted content
as it is, once. Both calls return `GoToNext` with consumed = true. -/
theorem C13_unchecked_task_and_plain_item_text (EmojiMap : Bytes → Option Bytes)
    (ancestors : List NodeKind) (literal : Bytes) (children : List Node) :
    (∀ rest, withEmoji EmojiMap literal = ascii "[ ]" ++ rest →
        renderHookText EmojiMap (.Paragraph :: .ListItem :: ancestors)
            (.mk .Text literal children)
          = some { written := checkboxUnchecked ++ rest, status := .GoToNext,
                   consumed := true })
    ∧ (HasPrefix (withEmoji EmojiMap literal) (ascii "[ ]") = false →
        HasPrefix (withEmoji EmojiMap literal) (ascii "[x]") = false →
        renderHookText EmojiMap (.Paragraph :: .ListItem :: ancestors)
            (.mk .Text literal children)
          = some { written := withEmoji EmojiMap literal, status := .GoToNext,
                   consumed := true }) := by
  constructor
  · intro rest h
    simp [renderHookText, kind_mk, literal_mk, h, textTail, CutPrefix_append]
  · intro h1 h2
    simp [renderHookText, kind_mk, literal_mk, textTail, CutPrefix_of_not h1,
      CutPrefix_of_not h2]

theorem C13_witness :
    renderHookText exampleEnv.EmojiMap [.Paragraph, .ListItem]
        (.mk .Text (ascii "[ ] todo :smile:") [])
      = some { written := checkboxUnchecked ++ ascii " todo (smile)", status := .GoToNext,
               consumed := true }
    ∧ renderHookText exampleEnv.EmojiMap [.Paragraph, .ListItem]
        (.mk .Text (ascii "plain item") [])
      = some { written := withEmoji exampleEnv.EmojiMap (ascii "plain item"),
               status := .GoToNext, consumed := true } :=
  ⟨(C13_unchecked_task_and_plain_item_text exampleEnv.EmojiMap [] (ascii "[ ] todo :smile:")
      []).1 (ascii " todo (smile)") (by decide),
   (C13_unchecked_task_and_plain_item_text exampleEnv.EmojiMap [] (ascii "plain item")
      []).2 (by decide) (by decide)⟩

/-- C14: for every list-item node whose first child `c` exists and, when it is a
paragraph, has a first child, and for either value of `entering`, `renderHookListItem`
returns (it does not panic) with status `GoToNext` and consumed = `isTaskItem c`, which
does not depend on `entering`: true exactly when `c` is a paragraph whose first child is a
text node whose literal begins with one of the two task markers. When it consumes it
writes the opening tag with the task-list class at entry and the closing tag at exit;
otherwise it writes nothing. -/
theorem C14_renderHookListItem_decision (literal : Bytes) (c : Node) (cs : List Node)
    (entering : Bool) (hc : c.kind = .Paragraph → c.children ≠ []) :
    renderHookListItem (.mk .ListItem literal (c :: cs)) entering
      = some { written :=
                 if isTaskItem c then
                   (if entering then ascii "<li class=\"task-list-item\">" else ascii "</li>")
                 else [],
               status := .GoToNext, consumed := isTaskItem c }
    ∧ (isTaskItem c = true ↔
        (c.kind = .Paragraph ∧ ∃ t ts, c.children = t :: ts ∧ t.kind = .Text
          ∧ (HasPrefix t.literal (ascii "[ ]") = true
              ∨ HasPrefix t.literal (ascii "[x]") = true))) := by
  by_cases hk : c.kind = .Paragraph
  · cases hch : c.children with
    | nil => exact absurd hch (hc hk)
    | cons t ts =>
      by_cases ht : t.kind = .Text
      · cases h1 : HasPrefix t.literal (ascii "[ ]") <;>
          cases h2 : HasPrefix t.literal (ascii "[x]") <;>
          cases entering <;>
          simp [renderHookListItem, isTaskItem, kind_mk, children_mk, hk, hch, ht, h1, h2]
      · simp [renderHookListItem, isTaskItem, kind_mk, children_mk, hk, hch, ht]
  · simp [renderHookListItem, isTaskItem, kind_mk, children_mk, hk]

theorem C14_witness :
    renderHookListItem
        (.mk .ListItem [] [.mk .Paragraph [] [.mk .Text (ascii "[x] done") []]]) true
      = some { written := ascii "<li class=\"task-list-item\">", status := .GoToNext,
               consumed := true } :=
  (C14_renderHookListItem_decision [] (.mk .Paragraph [] [.mk .Text (ascii "[x] done") []])
    [] true (fun _ h => List.cons_ne_nil _ _ h)).1

/-! ## Emoji substitution: unrecognised shortcodes -/

theorem matchShortcode_le {s : Bytes} {n : Nat} (h : matchShortcode s = some n) :
    n ≤ s.length := by
  unfold matchShortcode at h
  split at h
  · next rest =>
    simp only [] at h
    split at h
    · next j hj =>
      cases h
      have hmem := List.mem_of_find?_eq_some hj
      rw [List.mem_reverse, List.mem_range] at hmem
      have hle := (List.takeWhile_sublist (fun b => !isRegexSpace b) (l := rest)).length_le
      simp only [List.length_cons]
      omega
    · cases h
  · cases h

theorem withEmoji_nil (EmojiMap : Bytes → Option Bytes) : withEmoji EmojiMap [] = [] := rfl

theorem withEmoji_cons_none (EmojiMap : Bytes → Option Bytes) (c : Nat) (cs : Bytes)
    (h : matchShortcode (c :: cs) = none) :
    withEmoji EmojiMap (c :: cs) = c :: withEmoji EmojiMap cs := by
  unfold withEmoji
  rw [List.length_cons, replaceAllShortcodes, h]

theorem withEmoji_cons_some (EmojiMap : Bytes → Option Bytes) (c : Nat) (cs : Bytes) (n : Nat)
    (h : matchShortcode (c :: cs) = some n) :
    withEmoji EmojiMap (c :: cs) =
      emojiFor EmojiMap ((c :: cs).take n) ++ withEmoji EmojiMap ((c :: cs).drop n) := by
  unfold withEmoji
  rw [List.length_cons, replaceAllShortcodes, h]
  simp only []
  have hn := matchShortcode_pos h
  have hl : ((c :: cs).drop n).length ≤ cs.length := by
    rw [List.length_drop, List.length_cons]
    omega
  rw [replaceAllShortcodes_fuel _ cs.length ((c :: cs).drop n).length _ hl (Nat.le_refl _)]

theorem shortcodeMatchesAux_fuel (fuel1 : Nat) :
    ∀ (fuel2 : Nat) (s : Bytes), s.length ≤ fuel1 → s.length ≤ fuel2 →
      shortcodeMatchesAux fuel1 s = shortcodeMatchesAux fuel2 s := by
  induction fuel1 with
  | zero =>
    intro fuel2 s h1 _
    rw [List.length_eq_zero.1 (Nat.le_zero.1 h1)]
    cases fuel2 <;> rfl
  | succ fuel1 ih =>
    intro fuel2 s h1 h2
    cases s with
    | nil => cases fuel2 <;> rfl
    | cons c cs =>
      cases fuel2 with
      | zero => simp at h2
      | succ fuel2 =>
        simp only [List.length_cons, Nat.add_le_add_iff_right] at h1 h2
        simp only [shortcodeMatchesAux]
        cases hm : matchShortcode (c :: cs) with
        | none =>
          simp only []
          rw [ih fuel2 cs h1 h2]
        | some n =>
          simp only []
          have hn := matchShortcode_pos hm
          have hl : ((c :: cs).drop n).length ≤ cs.length := by
            rw [List.length_drop, List.length_cons]
            omega
          rw [ih fuel2 _ (Nat.le_trans hl h1) (Nat.le_trans hl h2)]

theorem shortcodeMatches_cons_none (c : Nat) (cs : Bytes)
    (h : matchShortcode (c :: cs) = none) :
    shortcodeMatches (c :: cs) = shortcodeMatches cs := by
  unfold shortcodeMatches
  rw [List.length_cons, shortcodeMatchesAux, h]

theorem shortcodeMatches_cons_some (c : Nat) (cs : Bytes) (n : Nat)
    (h : matchShortcode (c :: cs) = some n) :
    shortcodeMatches (c :: cs) =
      (c :: cs).take n :: shortcodeMatches ((c :: cs).drop n) := by
  unfold shortcodeMatches
  rw [List.length_cons, shortcodeMatchesAux, h]
  simp only []
  have hn := matchShortcode_pos h
  have hl : ((c :: cs).drop n).length ≤ cs.length := by
    rw [List.length_drop, List.length_cons]
    omega
  rw [shortcodeMatchesAux_fuel cs.length ((c :: cs).drop n).length _ hl (Nat.le_refl _)]

theorem emojiFor_of_none {EmojiMap : Bytes → Option Bytes} {s : Bytes}
    (h : EmojiMap s = none) : emojiFor EmojiMap s = s := by
  unfold emojiFor
  rw [h]

theorem withEmoji_of_no_key (EmojiMap : Bytes → Option Bytes) (len : Nat) :
    ∀ s : Bytes, s.length ≤ len →
      (∀ m ∈ shortcodeMatches s, EmojiMap m = none) → withEmoji EmojiMap s = s := by
  induction len with
  | zero =>
    intro s h _
    rw [List.length_eq_zero.1 (Nat.le_zero.1 h)]
    rfl
  | succ len ih =>
    intro s h hk
    cases s with
    | nil => rfl
    | cons c cs =>
      simp only [List.length_cons, Nat.add_le_add_iff_right] at h
      cases hm : matchShortcode (c :: cs) with
      | none =>
        rw [withEmoji_cons_none _ _ _ hm, ih cs h]
        rw [shortcodeMatches_cons_none _ _ hm] at hk
        exact hk
      | some n =>
        rw [shortcodeMatches_cons_some _ _ _ hm] at hk
        have hn := matchShortcode_pos hm
        have hl : ((c :: cs).drop n).length ≤ len := by
          rw [List.length_drop, List.length_cons]
          omega
        rw [withEmoji_cons_some _ _ _ _ hm,
          emojiFor_of_none (hk _ (List.mem_cons_self _ _)),
          ih _ hl (fun m hmem => hk m (List.mem_cons_of_mem _ hmem)),
          List.take_append_drop]

theorem shortcodeMatches_noColon (s : Bytes) (h : 58 ∉ s) : shortcodeMatches s = [] := by
  induction s with
  | nil => rfl
  | cons c cs ih =>
    simp only [List.mem_cons, not_or] at h
    rw [shortcodeMatches_cons_none _ _ (matchShortcode_cons_ne (fun e => h.1 e.symm) cs)]
    exact ih h.2

/-- C16: for every emoji table and every text content in which no match of the shortcode
pattern (found leftmost and greedily) is a key of the table, the emoji substitution
leaves the content byte-identical; a content without any colon has no match at all; and
for a text node whose parent is not a paragraph `renderHookText` writes exactly the
substituted content, hence the content itself, with `GoToNext` and consumed = true. -/
theorem C16_unrecognised_shortcodes_left_verbatim (EmojiMap : Bytes → Option Bytes)
    (content : Bytes) :
    ((∀ m ∈ shortcodeMatches content, EmojiMap m = none) →
        withEmoji EmojiMap content = content)
    ∧ (58 ∉ content → shortcodeMatches content = [] ∧ withEmoji EmojiMap content = content)
    ∧ (∀ (ancestors : List NodeKind) (children : List Node),
        ancestors.head? ≠ some .Paragraph →
        renderHookText EmojiMap ancestors (.mk .Text content children)
          = some { written := withEmoji EmojiMap content, status := .GoToNext,
                   consumed := true })
    ∧ (∀ (ancestors : List NodeKind) (children : List Node),
        ancestors.head? ≠ some .Paragraph →
        (∀ m ∈ shortcodeMatches content, EmojiMap m = none) →
        renderHookText EmojiMap ancestors (.mk .Text content children)
          = some { written := content, status := .GoToNext, consumed := true }) := by
  have h1 : (∀ m ∈ shortcodeMatches content, EmojiMap m = none) →
      withEmoji EmojiMap content = content :=
    withEmoji_of_no_key EmojiMap content.length content (Nat.le_refl _)
  have h3 : ∀ (ancestors : List NodeKind) (children : List Node),
      ancestors.head? ≠ some .Paragraph →
      renderHookText EmojiMap ancestors (.mk .Text content children)
        = some { written := withEmoji EmojiMap content, status := .GoToNext,
                 consumed := true } := by
    intro ancestors children hp
    simp [renderHookText, kind_mk, literal_mk, hp]
  refine ⟨h1, ?_, h3, ?_⟩
  · intro hc
    have hnil := shortcodeMatches_noColon content hc
    exact ⟨hnil, h1 (by rw [hnil]; intro m hm; cases hm)⟩
  · intro ancestors children hp hk
    rw [h3 ancestors children hp, h1 hk]

theorem C16_witness :
    withEmoji exampleEnv.EmojiMap (ascii "see :unknown: and 12:30") = ascii "see :unknown: and 12:30"
    ∧ renderHookText exampleEnv.EmojiMap [.Other] (.mk .Text (ascii "a < b & c") [])
      = some { written := ascii "a < b & c", status := .GoToNext, consumed := true } :=
  ⟨(C16_unrecognised_shortcodes_left_verbatim exampleEnv.EmojiMap
      (ascii "see :unknown: and 12:30")).1 (by decide),
   (C16_unrecognised_shortcodes_left_verbatim exampleEnv.EmojiMap (ascii "a < b & c")).2.2.2
      [.Other] [] (by decide) (by decide)⟩

/-! ## Emoji substitution: delimited shortcodes -/

theorem takeWhile_append_stop {p : Nat → Bool} (l : Bytes) (w : Nat) (b : Bytes)
    (hw : p w = false) : (l ++ w :: b).takeWhile p = l.takeWhile p := by
  induction l with
  | nil => simp [List.takeWhile, hw]
  | cons c cs ih =>
    rw [List.cons_append, List.takeWhile_cons, List.takeWhile_cons, ih]

theorem getD_append_cons_self (l : Bytes) (x : Nat) (r : Bytes) :
    (l ++ x :: r).getD l.length 0 = x := by
  induction l with
  | nil => rfl
  | cons c cs ih => exact ih

theorem getD_append_cons_gt (l : Bytes) (x : Nat) (r : Bytes) :
    ∀ k, l.length < k → (l ++ x :: r).getD k 0 = r.getD (k - l.length - 1) 0 := by
  induction l with
  | nil =>
    intro k hk
    cases k with
    | zero => simp at hk
    | succ k => rfl
  | cons c cs ih =>
    intro k hk
    cases k with
    | zero => simp at hk
    | succ k =>
      simp only [List.length_cons, Nat.add_lt_add_iff_right] at hk
      have h := ih k hk
      have he : k + 1 - (c :: cs).length - 1 = k - cs.length - 1 := by
        simp only [List.length_cons]; omega
      rw [he]
      exact h

theorem getD_ne_colon (r : Bytes) (h : 58 ∉ r) : ∀ i, r.getD i 0 ≠ 58 := by
  induction r with
  | nil =>
    intro i
    have h0 : ([] : Bytes).getD i 0 = 0 := by cases i <;> rfl
    rw [h0]
    decide
  | cons c cs ih =>
    intro i
    simp only [List.mem_cons, not_or] at h
    cases i with
    | zero => exact fun e => h.1 e.symm
    | succ i => exact ih h.2 i

theorem takeWhile_all {p : Nat → Bool} (l : Bytes) (h : ∀ b ∈ l, p b = true) :
    l.takeWhile p = l := by
  induction l with
  | nil => rfl
  | cons c cs ih =>
    simp only [List.takeWhile, h c (List.mem_cons_self _ _)]
    rw [ih (fun b hb => h b (List.mem_cons_of_mem _ hb))]

theorem not_isRegexSpace_colon : isRegexSpace 58 = false := by decide

theorem matchShortcode_append_space (x : Bytes) (w : Nat) (b : Bytes)
    (hw : isRegexSpace w = true) :
    matchShortcode (x ++ w :: b) = matchShortcode x := by
  cases x with
  | nil =>
    have hne : w ≠ 58 := by
      intro h
      rw [h, not_isRegexSpace_colon] at hw
      cases hw
    rw [List.nil_append, matchShortcode_cons_ne hne]
    rfl
  | cons c cs =>
    by_cases hc : c = 58
    · subst hc
      simp only [List.cons_append, matchShortcode]
      rw [takeWhile_append_stop cs w b (by simp [hw])]
    · rw [List.cons_append, matchShortcode_cons_ne hc, matchShortcode_cons_ne hc]

theorem withEmoji_append_space (EmojiMap : Bytes → Option Bytes) (w : Nat) (b : Bytes)
    (hw : isRegexSpace w = true) (len : Nat) :
    ∀ x : Bytes, x.length ≤ len →
      withEmoji EmojiMap (x ++ w :: b) = withEmoji EmojiMap x ++ w :: withEmoji EmojiMap b := by
  induction len with
  | zero =>
    intro x h
    rw [List.length_eq_zero.1 (Nat.le_zero.1 h), List.nil_append, withEmoji_nil,
      List.nil_append]
    have hm := matchShortcode_append_space [] w b hw
    rw [List.nil_append] at hm
    exact withEmoji_cons_none _ _ _ (hm.trans rfl)
  | succ len ih =>
    intro x h
    cases x with
    | nil =>
      rw [List.nil_append, withEmoji_nil, List.nil_append]
      have hm := matchShortcode_append_space [] w b hw
      rw [List.nil_append] at hm
      exact withEmoji_cons_none _ _ _ (hm.trans rfl)
    | cons c cs =>
      simp only [List.length_cons, Nat.add_le_add_iff_right] at h
      have hm := matchShortcode_append_space (c :: cs) w b hw
      rw [List.cons_append] at hm
      cases hx : matchShortcode (c :: cs) with
      | none =>
        rw [hx] at hm
        rw [List.cons_append, withEmoji_cons_none _ _ _ hm, withEmoji_cons_none _ _ _ hx,
          ih cs h]
        rfl
      | some n =>
        rw [hx] at hm
        have hn := matchShortcode_pos hx
        have hle := matchShortcode_le hx
        have hl : ((c :: cs).drop n).length ≤ len := by
          rw [List.length_drop, List.length_cons]
          omega
        rw [List.cons_append, withEmoji_cons_some _ _ _ _ hm, withEmoji_cons_some _ _ _ _ hx]
        rw [← List.cons_append, List.take_append_of_le_length hle,
          List.drop_append_of_le_length hle, ih _ hl, List.append_assoc]

theorem find?_reverse_range (p : Nat → Bool) (j : Nat) (hj : p j = true) :
    ∀ n : Nat, j < n → (∀ k, j < k → k < n → p k = false) →
      (List.range n).reverse.find? p = some j := by
  intro n
  induction n with
  | zero => intro h; omega
  | succ n ih =>
    intro hlt hk
    rw [List.range_succ, List.reverse_append, List.reverse_singleton, List.singleton_append]
    by_cases hjn : j = n
    · subst hjn
      rw [List.find?_cons, hj]
    · have hlt2 : j < n := by omega
      rw [List.find?_cons, hk n hlt2 (Nat.lt_succ_self n)]
      exact ih hlt2 (fun k h1 h2 => hk k h1 (Nat.lt_succ_of_lt h2))

theorem matchShortcode_delimited (tok post1 post2 : Bytes) (htok : tok ≠ [])
    (hts : ∀ b ∈ tok, isRegexSpace b = false) (hpc : 58 ∉ post1)
    (hps : ∀ b ∈ post1, isRegexSpace b = false)
    (hp2 : post2 = [] ∨ ∃ w y, post2 = w :: y ∧ isRegexSpace w = true) :
    matchShortcode (58 :: tok ++ 58 :: post1 ++ post2) = some (tok.length + 2) := by
  have hrun : (tok ++ 58 :: post1 ++ post2).takeWhile (fun b => !isRegexSpace b)
      = tok ++ 58 :: post1 := by
    have hall : ∀ b ∈ tok ++ 58 :: post1, (fun b => !isRegexSpace b) b = true := by
      intro b hb
      simp only [List.mem_append, List.mem_cons] at hb
      rcases hb with h | h | h
      · simp [hts b h]
      · subst h; rfl
      · simp [hps b h]
    rcases hp2 with h | ⟨w, y, h, hw⟩
    · subst h
      rw [List.append_nil]
      exact takeWhile_all _ hall
    · subst h
      have : tok ++ 58 :: post1 ++ w :: y = (tok ++ 58 :: post1) ++ w :: y := by simp
      rw [this, takeWhile_append_stop _ w y (by simp [hw])]
      exact takeWhile_all _ hall
  have hget : (tok ++ 58 :: post1).getD tok.length 0 = 58 :=
    getD_append_cons_self tok 58 post1
  have hpos : 0 < tok.length := List.length_pos.2 htok
  have hp : (fun j => decide (1 ≤ j) && (tok ++ 58 :: post1).getD j 0 == 58) tok.length
      = true := by
    simp only [hget, beq_self_eq_true, Bool.and_true, decide_eq_true_eq]
    omega
  simp only [List.cons_append, matchShortcode]
  rw [hrun, find?_reverse_range _ tok.length hp]
  · simp only [List.length_append, List.length_cons]
    omega
  · intro k hk1 _
    have hne := getD_ne_colon post1 hpc (k - tok.length - 1)
    rw [← getD_append_cons_gt tok 58 post1 k hk1] at hne
    simp only [Bool.and_eq_false_imp, decide_eq_true_eq, beq_eq_false_iff_ne, ne_eq]
    exact fun _ => hne

theorem withEmoji_append_of_endsSpace (EmojiMap : Bytes → Option Bytes) (before rest : Bytes)
    (hb : before = [] ∨ ∃ x w, before = x ++ [w] ∧ isRegexSpace w = true) :
    withEmoji EmojiMap (before ++ rest) = withEmoji EmojiMap before ++ withEmoji EmojiMap rest := by
  rcases hb with h | ⟨x, w, h, hw⟩
  · subst h
    rfl
  · subst h
    have h1 := withEmoji_append_space EmojiMap w rest hw x.length x (Nat.le_refl _)
    have h2 := withEmoji_append_space EmojiMap w [] hw x.length x (Nat.le_refl _)
    rw [withEmoji_nil] at h2
    rw [List.append_assoc, List.singleton_append, h1, h2, List.append_assoc,
      List.singleton_append]

theorem withEmoji_delimited (EmojiMap : Bytes → Option Bytes) (tok post1 post2 : Bytes)
    (htok : tok ≠ []) (hts : ∀ b ∈ tok, isRegexSpace b = false) (hpc : 58 ∉ post1)
    (hps : ∀ b ∈ post1, isRegexSpace b = false)
    (hp2 : post2 = [] ∨ ∃ w y, post2 = w :: y ∧ isRegexSpace w = true) :
    withEmoji EmojiMap (58 :: (tok ++ 58 :: (post1 ++ post2)))
      = emojiFor EmojiMap (58 :: (tok ++ [58])) ++ (post1 ++ withEmoji EmojiMap post2) := by
  have hm := matchShortcode_delimited tok post1 post2 htok hts hpc hps hp2
  have he : 58 :: tok ++ 58 :: post1 ++ post2 = 58 :: (tok ++ 58 :: (post1 ++ post2)) := by
    simp
  rw [he] at hm
  have hsplit : 58 :: (tok ++ 58 :: (post1 ++ post2))
      = (58 :: (tok ++ [58])) ++ (post1 ++ post2) := by simp
  have hlen : (58 :: (tok ++ [58])).length = tok.length + 2 := by simp
  rw [withEmoji_cons_some _ _ _ _ hm, hsplit, List.take_left' hlen, List.drop_left' hlen,
    withEmoji_append_noColon _ post1 hpc]

theorem renderHookText_unchanged (EmojiMap : Bytes → Option Bytes)
    (ancestors : List NodeKind) (literal : Bytes) (children : List Node)
    (hq : ancestors.head? = some .Paragraph → ancestors.tail.head? = some .BlockQuote →
      ∀ K ∈ blockquotes, HasPrefix (withEmoji EmojiMap literal) (alertToken K) = false)
    (hl : ancestors.head? = some .Paragraph → ancestors.tail.head? = some .ListItem →
      HasPrefix (withEmoji EmojiMap literal) (ascii "[ ]") = false
        ∧ HasPrefix (withEmoji EmojiMap literal) (ascii "[x]") = false) :
    renderHookText EmojiMap ancestors (.mk .Text literal children)
      = some { written := withEmoji EmojiMap literal, status := .GoToNext,
               consumed := true } := by
  cases ancestors with
  | nil => simp [renderHookText, kind_mk, literal_mk]
  | cons p rest =>
    by_cases hp : p = .Paragraph
    · subst hp
      cases rest with
      | nil => simp [renderHookText, kind_mk, literal_mk, textTail]
      | cons gp rest2 =>
        by_cases hb : gp = .BlockQuote
        · subst hb
          have h := hq rfl rfl
          simp [renderHookText, kind_mk, literal_mk, cutAlertPrefix_noMatch _ _ h, textTail]
        · by_cases hli : gp = .ListItem
          · subst hli
            have h := hl rfl rfl
            simp [renderHookText, kind_mk, literal_mk, textTail, CutPrefix_of_not h.1,
              CutPrefix_of_not h.2]
          · simp [renderHookText, kind_mk, literal_mk, hb, hli, textTail]
    · simp [renderHookText, kind_mk, literal_mk, hp]

theorem renderHookText_alert (EmojiMap : Bytes → Option Bytes) (ancestors : List NodeKind)
    (literal K r : Bytes) (children : List Node) (hK : K ∈ blockquotes)
    (h : withEmoji EmojiMap literal = alertToken K ++ r) :
    renderHookText EmojiMap (.Paragraph :: .BlockQuote :: ancestors)
        (.mk .Text literal children)
      = some { written := r, status := .GoToNext, consumed := true } := by
  have hu : ∀ b ∈ blockquotes,
      HasPrefix (alertToken K ++ r) (alertToken b) = true → b = K :=
    fun b hb hm => alertToken_unique hb hK hm (HasPrefix_append _ _)
  simp only [renderHookText, kind_mk, literal_mk, h]
  simp [cutAlertPrefix_match K r blockquotes hK hu]

theorem renderHookText_unchecked (EmojiMap : Bytes → Option Bytes)
    (ancestors : List NodeKind) (literal r : Bytes) (children : List Node)
    (h : withEmoji EmojiMap literal = ascii "[ ]" ++ r) :
    renderHookText EmojiMap (.Paragraph :: .ListItem :: ancestors)
        (.mk .Text literal children)
      = some { written := checkboxUnchecked ++ r, status := .GoToNext,
               consumed := true } := by
  simp [renderHookText, kind_mk, literal_mk, h, textTail, CutPrefix_append]

theorem renderHookText_checked (EmojiMap : Bytes → Option Bytes)
    (ancestors : List NodeKind) (literal r : Bytes) (children : List Node)
    (h : withEmoji EmojiMap literal = ascii "[x]" ++ r) :
    renderHookText EmojiMap (.Paragraph :: .ListItem :: ancestors)
        (.mk .Text literal children)
      = some { written := (checkboxChecked ++ r) ++ (ascii "[x]" ++ r),
               status := .GoToNext, consumed := true } := by
  have h1 : CutPrefix (ascii "[x]" ++ r) (ascii "[ ]") = (ascii "[x]" ++ r, false) := rfl
  simp [renderHookText, kind_mk, literal_mk, h, textTail, h1, CutPrefix_append]

/-- C15 as stated fails: with a table that maps the shortcode for "smile", the text made
of that shortcode twice in a row, and the text "12:30" directly followed by the
shortcode, are written unchanged (the greedy pattern takes the whole run up to the last
colon as one match, which is no key), although the shortcode is a key and occurs in
them; standing alone it is replaced. -/
theorem C15_counterexample :
    exampleEnv.EmojiMap (ascii ":smile:") = some (ascii "(smile)")
    ∧ renderHookText exampleEnv.EmojiMap [.Other] (.mk .Text (ascii ":smile::smile:") [])
      = some { written := ascii ":smile::smile:", status := .GoToNext, consumed := true }
    ∧ renderHookText exampleEnv.EmojiMap [.Other] (.mk .Text (ascii "12:30:smile:") [])
      = some { written := ascii "12:30:smile:", status := .GoToNext, consumed := true }
    ∧ renderHookText exampleEnv.EmojiMap [.Other] (.mk .Text (ascii ":smile:") [])
      = some { written := ascii "(smile)", status := .GoToNext, consumed := true } := by
  decide

/-- C15, amended: for every emoji table and every text `content` of the form
`before ++ pre ++ ":" ++ tok ++ ":" ++ post1 ++ post2`, where `before` is empty or ends
with a white-space byte, `pre` and `post1` contain no colon, `tok` is non-empty, `tok`
and `post1` contain no white space and `post2` is empty or begins with a white-space byte
(so the shortcode is the only colon-delimited token of its word), the emoji substitution
of `content` is `substituted`: the shortcode is replaced by what the callback gives for
it, `pre` and `post1` are left as they are. The callback gives the table value when it is
a glyph and the image element with title and alt equal to the shortcode and src equal to
the value when the value begins with a slash. What `renderHookText` writes for a text
node with this content is then, in every context: `substituted` itself, unless the parent
is a paragraph of a block quote and `substituted` begins with a recognised alert token
(then the rest after the token), or the parent is a paragraph of a list item and
`substituted` begins with a task marker (then the check box and the rest, followed for
the checked marker by `substituted` once more). -/
theorem C15_delimited_shortcode_replaced (EmojiMap : Bytes → Option Bytes)
    (before pre tok post1 post2 content substituted : Bytes)
    (hcontent : content = before ++ (pre ++ (58 :: (tok ++ 58 :: (post1 ++ post2)))))
    (hsubst : substituted = withEmoji EmojiMap before
      ++ (pre ++ (emojiFor EmojiMap (58 :: (tok ++ [58]))
        ++ (post1 ++ withEmoji EmojiMap post2))))
    (hb : before = [] ∨ ∃ x w, before = x ++ [w] ∧ isRegexSpace w = true)
    (hpre : 58 ∉ pre) (htok : tok ≠ []) (hts : ∀ b ∈ tok, isRegexSpace b = false)
    (hpc : 58 ∉ post1) (hps : ∀ b ∈ post1, isRegexSpace b = false)
    (hp2 : post2 = [] ∨ ∃ w y, post2 = w :: y ∧ isRegexSpace w = true) :
    withEmoji EmojiMap content = substituted
    ∧ (∀ val, EmojiMap (58 :: (tok ++ [58])) = some val →
        emojiFor EmojiMap (58 :: (tok ++ [58]))
          = if HasPrefix val (ascii "/") then
              ascii "<img class=\"emoji\" title=\"" ++ (58 :: (tok ++ [58]))
                ++ ascii "\" alt=\"" ++ (58 :: (tok ++ [58]))
                ++ ascii "\" src=\"" ++ val
                ++ ascii "\" height=\"20\" width=\"20\" align=\"absmiddle\">"
            else val)
    ∧ (∀ (ancestors : List NodeKind) (children : List Node),
        (ancestors.head? = some .Paragraph → ancestors.tail.head? = some .BlockQuote →
          ∀ K ∈ blockquotes, HasPrefix substituted (alertToken K) = false) →
        (ancestors.head? = some .Paragraph → ancestors.tail.head? = some .ListItem →
          HasPrefix substituted (ascii "[ ]") = false
            ∧ HasPrefix substituted (ascii "[x]") = false) →
        renderHookText EmojiMap ancestors (.mk .Text content children)
          = some { written := substituted, status := .GoToNext, consumed := true })
    ∧ (∀ (ancestors : List NodeKind) (children : List Node) (K r : Bytes),
        K ∈ blockquotes → substituted = alertToken K ++ r →
        renderHookText EmojiMap (.Paragraph :: .BlockQuote :: ancestors)
            (.mk .Text content children)
          = some { written := r, status := .GoToNext, consumed := true })
    ∧ (∀ (ancestors : List NodeKind) (children : List Node) (r : Bytes),
        substituted = ascii "[ ]" ++ r →
        renderHookText EmojiMap (.Paragraph :: .ListItem :: ancestors)
            (.mk .Text content children)
          = some { written := checkboxUnchecked ++ r, status := .GoToNext,
                   consumed := true })
    ∧ (∀ (ancestors : List NodeKind) (children : List Node) (r : Bytes),
        substituted = ascii "[x]" ++ r →
        renderHookText EmojiMap (.Paragraph :: .ListItem :: ancestors)
            (.mk .Text content children)
          = some { written := (checkboxChecked ++ r) ++ substituted, status := .GoToNext,
                   consumed := true }) := by
  have hmain : withEmoji EmojiMap content = substituted := by
    rw [hcontent, hsubst, withEmoji_append_of_endsSpace _ _ _ hb,
      withEmoji_append_noColon _ pre hpre,
      withEmoji_delimited _ tok post1 post2 htok hts hpc hps hp2]
  refine ⟨hmain, ?_, ?_, ?_, ?_, ?_⟩
  · intro val hv
    unfold emojiFor
    rw [hv]
  · intro ancestors children hq hl
    rw [← hmain] at hq hl ⊢
    exact renderHookText_unchanged EmojiMap ancestors content children hq hl
  · intro ancestors children K r hK hr
    exact renderHookText_alert EmojiMap ancestors content K r children hK (hmain.trans hr)
  · intro ancestors children r hr
    exact renderHookText_unchecked EmojiMap ancestors content r children (hmain.trans hr)
  · intro ancestors children r hr
    rw [hr]
    exact renderHookText_checked EmojiMap ancestors content r children (hmain.trans hr)

theorem C15_witness :
    withEmoji exampleEnv.EmojiMap (ascii "hi (:smile:) x") = ascii "hi ((smile)) x"
    ∧ renderHookText exampleEnv.EmojiMap [.Paragraph, .Other]
        (.mk .Text (ascii "hi (:smile:) x") [])
      = some { written := ascii "hi ((smile)) x", status := .GoToNext, consumed := true } :=
  ⟨(C15_delimited_shortcode_replaced exampleEnv.EmojiMap (ascii "hi ") (ascii "(") (ascii "smile") (ascii ")")
      (ascii " x") (ascii "hi (:smile:) x") (ascii "hi ((smile)) x") (by decide) (by decide)
      (Or.inr ⟨ascii "hi", 32, rfl, rfl⟩) (by decide) (by decide) (by decide) (by decide)
      (by decide) (Or.inr ⟨32, ascii "x", rfl, rfl⟩)).1,
   (C15_delimited_shortcode_replaced exampleEnv.EmojiMap (ascii "hi ") (ascii "(") (ascii "smile") (ascii ")")
      (ascii " x") (ascii "hi (:smile:) x") (ascii "hi ((smile)) x") (by decide) (by decide)
      (Or.inr ⟨ascii "hi", 32, rfl, rfl⟩) (by decide) (by decide) (by decide) (by decide)
      (by decide) (Or.inr ⟨32, ascii "x", rfl, rfl⟩)).2.2.1 [.Paragraph, .Other] []
      (by decide) (by decide)⟩

/-! ## Missing children; block-quote markers in front of a line -/

/-- C17 (what the code does): the hooks index the first child without a length check, so
for a paragraph of a block quote without children, for a list item without children and
for a list item whose first child is a paragraph without children the call panics (`none`)
instead of returning a decision, for either value of `entering`; so does the dispatching
`renderHook`. -/
theorem C17_hooks_panic_without_children (env : Env) (ancestors : List NodeKind)
    (literal plit : Bytes) (cs : List Node) (entering : Bool) :
    renderHookParagraph env.execTemplate (.BlockQuote :: ancestors)
        (.mk .Paragraph literal []) entering = none
    ∧ renderHookListItem (.mk .ListItem literal []) entering = none
    ∧ renderHookListItem (.mk .ListItem literal (.mk .Paragraph plit [] :: cs)) entering = none
    ∧ renderHook env (.BlockQuote :: ancestors) (.mk .Paragraph literal []) entering = none
    ∧ renderHook env ancestors (.mk .ListItem literal []) entering = none
    ∧ renderHook env ancestors (.mk .ListItem literal (.mk .Paragraph plit [] :: cs)) entering
        = none := by
  refine ⟨rfl, rfl, rfl, rfl, rfl, rfl⟩

theorem dropWhile_spaceTab_append (ws s : Bytes) (hws : ∀ b ∈ ws, b = 32 ∨ b = 9)
    (hs : s.head? ≠ some 32 ∧ s.head? ≠ some 9) :
    (ws ++ s).dropWhile (fun b => b == 32 || b == 9) = s := by
  induction ws with
  | nil =>
    cases s with
    | nil => rfl
    | cons c cs =>
      have h1 : c ≠ 32 := fun e => hs.1 (by rw [e]; rfl)
      have h2 : c ≠ 9 := fun e => hs.2 (by rw [e]; rfl)
      have hc : (c == 32 || c == 9) = false := by simp [h1, h2]
      rw [List.nil_append, List.dropWhile_cons, hc]
      rfl
  | cons w ws ih =>
    have hw : (w == 32 || w == 9) = true := by
      rcases hws w (List.mem_cons_self _ _) with h | h <;> simp [h]
    rw [List.cons_append, List.dropWhile_cons, hw]
    exact ih (fun b hb => hws b (List.mem_cons_of_mem _ hb))

theorem SpecListStart_marker (ws s : Bytes) (hws : ∀ b ∈ ws, b = 32 ∨ b = 9)
    (hs : s.head? ≠ some 32 ∧ s.head? ≠ some 9) :
    SpecListStart (62 :: (ws ++ s)) ↔ SpecListStart s := by
  unfold SpecListStart
  constructor
  · rintro ⟨rest, hr, hb⟩
    cases hr with
    | done _ hne => exact absurd rfl (hne (ws ++ s))
    | step _ _ h =>
      rw [dropWhile_spaceTab_append ws s hws hs] at h
      exact ⟨rest, h, hb⟩
  · rintro ⟨rest, hr, hb⟩
    refine ⟨rest, StripsTo.step _ _ ?_, hb⟩
    rw [dropWhile_spaceTab_append ws s hws hs]
    exact hr

theorem isListStart_marker (ws s : Bytes) (hws : ∀ b ∈ ws, b = 32 ∨ b = 9)
    (hs : s.head? ≠ some 32 ∧ s.head? ≠ some 9) :
    isListStart (62 :: (ws ++ s)) = isListStart s := by
  rw [Bool.eq_iff_iff, isListStart_iff, isListStart_iff]
  exact SpecListStart_marker ws s hws hs

theorem addMarkers_head (runs : List Bytes) (s : Bytes)
    (hs : s.head? ≠ some 32 ∧ s.head? ≠ some 9) :
    (addMarkers runs s).head? ≠ some 32 ∧ (addMarkers runs s).head? ≠ some 9 := by
  cases runs with
  | nil => exact hs
  | cons ws runs =>
    have hstep : addMarkers (ws :: runs) s = 62 :: (ws ++ addMarkers runs s) := rfl
    rw [hstep, List.head?_cons]
    exact ⟨by decide, by decide⟩

theorem isListStart_addMarkers (runs : List Bytes) (s : Bytes)
    (hruns : ∀ ws ∈ runs, ∀ b ∈ ws, b = 32 ∨ b = 9)
    (hs : s.head? ≠ some 32 ∧ s.head? ≠ some 9) :
    isListStart (addMarkers runs s) = isListStart s := by
  induction runs with
  | nil => rfl
  | cons ws runs ih =>
    have ih' := ih (fun x hx => hruns x (List.mem_cons_of_mem _ hx))
    have hstep : addMarkers (ws :: runs) s = 62 :: (ws ++ addMarkers runs s) := rfl
    rw [hstep, isListStart_marker ws _ (hruns ws (List.mem_cons_self _ _))
      (addMarkers_head runs s hs), ih']

/-- C18: for every line `s` that does not begin with a space or a tab and every run `ws`
of spaces and tabs, `isListStart` gives the same result for `s` and for `s` with a
block-quote marker and `ws` put in front; hence the same for any number of markers, each
with its own run, put in front of `s`; and a line made of markers and such runs only is
no list start. -/
theorem C18_isListStart_ignores_quote_markers (s : Bytes)
    (hs : s.head? ≠ some 32 ∧ s.head? ≠ some 9) :
    (∀ ws : Bytes, (∀ b ∈ ws, b = 32 ∨ b = 9) →
        isListStart (ascii ">" ++ ws ++ s) = isListStart s)
    ∧ (∀ runs : List Bytes, (∀ ws ∈ runs, ∀ b ∈ ws, b = 32 ∨ b = 9) →
        isListStart (addMarkers runs s) = isListStart s)
    ∧ (∀ runs : List Bytes, (∀ ws ∈ runs, ∀ b ∈ ws, b = 32 ∨ b = 9) →
        isListStart (addMarkers runs []) = false) := by
  refine ⟨?_, ?_, ?_⟩
  · intro ws hws
    have he : ascii ">" ++ ws ++ s = 62 :: (ws ++ s) := rfl
    rw [he]
    exact isListStart_marker ws s hws hs
  · intro runs hruns
    exact isListStart_addMarkers runs s hruns hs
  · intro runs hruns
    rw [isListStart_addMarkers runs [] hruns ⟨by decide, by decide⟩]
    rfl

theorem C18_witness :
    isListStart (ascii ">" ++ ascii " \t" ++ ascii "- Item") = isListStart (ascii "- Item")
    ∧ isListStart (addMarkers [ascii " ", ascii "", ascii "\t "] (ascii "1. Item"))
        = isListStart (ascii "1. Item")
    ∧ isListStart (addMarkers [ascii " ", ascii ""] []) = false :=
  ⟨(C18_isListStart_ignores_quote_markers (ascii "- Item") (by decide)).1 (ascii " \t")
      (by decide),
   (C18_isListStart_ignores_quote_markers (ascii "1. Item") (by decide)).2.1
      [ascii " ", ascii "", ascii "\t "] (by decide),
   (C18_isListStart_ignores_quote_markers (ascii "1. Item") (by decide)).2.2
      [ascii " ", ascii ""] (by decide)⟩

/-! ## Fence kinds; alert markup at entry and exit -/

/-- C19 (what the code does): the loop keeps one flag that every delimiter line of either
kind toggles. In the document with the lines "```", "~~~", "text", "- item", "```" the
region opened by the backticks is closed only by the last line, but the tilde line
inside it toggles the flag to closed, so the line "- item" is reached with the flag
closed and an empty line is inserted before it, inside the fenced region. -/
theorem C19_other_delimiter_closes_region :
    isFence (ascii "~~~") = true
    ∧ fenceOpenBefore (Split (ascii "```\n~~~\ntext\n- item\n```")) 1 = true
    ∧ fenceOpenBefore (Split (ascii "```\n~~~\ntext\n- item\n```")) 2 = false
    ∧ (loopUpTo (Split (ascii "```\n~~~\ntext\n- item\n```")) 3).inCodeBlock = false
    ∧ (loopUpTo (Split (ascii "```\n~~~\ntext\n- item\n```")) 4).result
        = (loopUpTo (Split (ascii "```\n~~~\ntext\n- item\n```")) 3).result
            ++ [[], ascii "- item"]
    ∧ preprocessMarkdown (ascii "```\n~~~\ntext\n- item\n```")
        = ascii "```\n~~~\ntext\n\n- item\n```"
    ∧ preprocessMarkdown (ascii "~~~\n```\ntext\n- item\n~~~")
        = ascii "~~~\n```\ntext\n\n- item\n~~~" := by
  decide

/-- C20 as stated fails: when the template cannot be rendered, the hook writes the empty
string at entry of an alert paragraph and still writes the closing `div` tag at exit. -/
theorem C20_counterexample :
    createBlockquoteStart emptyEnv.execTemplate (ascii "note") = ([], true)
    ∧ renderHookParagraph emptyEnv.execTemplate [.BlockQuote]
        (.mk .Paragraph [] [.mk .Text (ascii "[!NOTE] hi") []]) true
      = some { written := [], status := .GoToNext, consumed := true }
    ∧ renderHookParagraph emptyEnv.execTemplate [.BlockQuote]
        (.mk .Paragraph [] [.mk .Text (ascii "[!NOTE] hi") []]) false
      = some { written := ascii "</div>", status := .GoToNext, consumed := true } := by
  decide

/-- C20, amended: for every alert paragraph (a paragraph of a block quote whose first
child is a text beginning with the alert token of a kind `K` of `blockquotes`) the hook
writes the closing `div` tag at exit whatever the template does, and at entry it writes
the first component of `createBlockquoteStart` for the lower-cased `K`: the rendered
template when rendering succeeds, and the empty string, with the error discarded, when it
fails. So the closing tag has a non-empty opening fragment before it exactly when the
template renders to a non-empty text. -/
theorem C20_alert_markup_entry_and_exit (execTemplate : Bytes → Bytes → Option Bytes)
    (ancestors : List NodeKind) (K rest plit : Bytes) (tcs cs : List Node)
    (hK : K ∈ blockquotes) :
    renderHookParagraph execTemplate (.BlockQuote :: ancestors)
        (.mk .Paragraph plit (.mk .Text (alertToken K ++ rest) tcs :: cs)) false
      = some { written := ascii "</div>", status := .GoToNext, consumed := true }
    ∧ renderHookParagraph execTemplate (.BlockQuote :: ancestors)
        (.mk .Paragraph plit (.mk .Text (alertToken K ++ rest) tcs :: cs)) true
      = some { written := (createBlockquoteStart execTemplate (ToLower K)).1,
               status := .GoToNext, consumed := true }
    ∧ (∀ tpl,
        execTemplate (ascii "templates/alert" ++ ascii "/" ++ (ToLower K ++ ascii ".html"))
            (ToLower K) = some tpl →
        createBlockquoteStart execTemplate (ToLower K) = (tpl, false))
    ∧ (execTemplate (ascii "templates/alert" ++ ascii "/" ++ (ToLower K ++ ascii ".html"))
            (ToLower K) = none →
        createBlockquoteStart execTemplate (ToLower K) = ([], true))
    ∧ ((createBlockquoteStart execTemplate (ToLower K)).1 ≠ [] ↔
        ∃ tpl, execTemplate
            (ascii "templates/alert" ++ ascii "/" ++ (ToLower K ++ ascii ".html"))
            (ToLower K) = some tpl ∧ tpl ≠ []) := by
  have ha := alertOf_match _ K hK (HasPrefix_append (alertToken K) rest)
  have hne := ToLower_ne_nil K hK
  refine ⟨?_, ?_, ?_, ?_, ?_⟩
  · simp [renderHookParagraph, kind_mk, children_mk, literal_mk, ha, hne]
  · simp [renderHookParagraph, kind_mk, children_mk, literal_mk, ha, hne]
  · intro tpl h
    simp only [createBlockquoteStart, h]
  · intro h
    simp only [createBlockquoteStart, h]
  · unfold createBlockquoteStart
    simp only []
    cases h : execTemplate
        (ascii "templates/alert" ++ ascii "/" ++ (ToLower K ++ ascii ".html")) (ToLower K) with
    | none => simp
    | some tpl => simp

theorem C20_witness :
    renderHookParagraph exampleEnv.execTemplate [.BlockQuote]
        (.mk .Paragraph [] [.mk .Text (alertToken (ascii "Caution") ++ ascii " hot") []]) true
      = some { written := (createBlockquoteStart exampleEnv.execTemplate
                 (ToLower (ascii "Caution"))).1,
               status := .GoToNext, consumed := true } :=
  (C20_alert_markup_entry_and_exit exampleEnv.execTemplate [] (ascii "Caution")
    (ascii " hot") [] [] [] (by decide)).2.1

end GoGrip
